import Mathlib

/-!
# Verification of the `agrev` core against its specification

Shallow embedding of the `agrev` code-review tool (Go) in Lean 4.

Conventions used throughout:

* Raw patch text is represented as its list of newline-separated lines
  (`List String`); a `String` in that list never contains `'\n'`.  The Go
  code builds patch text by emitting lines terminated with `"\n"` and the
  parser tokenizes on line boundaries, so this is the same data.
* Go `map` values are represented as functions into `Option`; reading a
  missing key yields the zero value, which we model with `Option.getD`.
* The third-party unified-diff parser (`gitdiff.Parse`, wrapped by
  `diff.Parse` in `internal/diff/diff.go`) is not part of this repository's
  sources; its behaviour is modelled from the spec's patch-text grammar
  (spec §6 and §4.1): `diff --git a/<path> b/<path>`, optional extended
  headers (`new file mode`, `deleted file mode`, `rename from/to`, index
  and mode lines, binary markers), `--- a/<old>`, `+++ b/<new>`, then
  `@@ -old,oldLines +new,newLines @@ [comment]` hunks whose bodies are
  space/`+`/`-`-prefixed lines delimited by the header's line counts.
* Go `regexp` matching is abstracted as a `RegexEngine` parameter: the
  pattern source strings are carried verbatim and the engine interprets
  them.  Every theorem that does not depend on which lines match holds for
  all engines.  The dynamically-built whole-word patterns
  (`\b<name>\b` in `findTestReferences` and `countReferences`) are
  implemented concretely, as are `filepath.Glob` component patterns.
* The repository file system seen by the analysis passes is modelled as a
  list of `(path, contents)` pairs in traversal order.
-/

/-- Line operation of one diff line (`gitdiff.LineOp`). -/
inductive LineOp where
  | context
  | add
  | delete
deriving DecidableEq

def LineOp.isAdd : LineOp → Bool
  | .add => true
  | _ => false

def LineOp.isDelete : LineOp → Bool
  | .delete => true
  | _ => false

def LineOp.isContext : LineOp → Bool
  | .context => true
  | _ => false

/-- One line of a hunk: operation tag and raw text without the trailing
newline (spec §3 `Line`). -/
structure DiffLine where
  op : LineOp
  text : String
deriving DecidableEq

/-- A hunk (`gitdiff.TextFragment`): old/new starting line numbers and
line counts, optional trailing comment, ordered lines. -/
structure TextFragment where
  oldPosition : Nat
  oldLines : Nat
  newPosition : Nat
  newLines : Nat
  comment : String
  lines : List DiffLine
deriving DecidableEq

/-- One file of a diff (`diff.File` in `internal/diff/diff.go`).  The
aggregate added/deleted line counters stored by `diff.Parse` are recovered
by `DiffFile.addedLines` / `DiffFile.deletedLines` below, which compute
exactly the sums `Parse` stores. -/
structure DiffFile where
  oldName : String
  newName : String
  isNew : Bool
  isDeleted : Bool
  isRenamed : Bool
  isBinary : Bool
  fragments : List TextFragment
deriving DecidableEq

/-- `diff.DiffSet`: the ordered files of one parsed diff. -/
structure DiffSet where
  files : List DiffFile
deriving DecidableEq

/-- Lines counted by `diff.Parse` into `File.AddedLines` for one fragment. -/
def fragAdded (fr : TextFragment) : Nat :=
  (fr.lines.filter (fun l => l.op.isAdd)).length

/-- Lines counted by `diff.Parse` into `File.DeletedLines` for one fragment. -/
def fragDeleted (fr : TextFragment) : Nat :=
  (fr.lines.filter (fun l => l.op.isDelete)).length

/-- `File.AddedLines` as computed by `diff.Parse`. -/
def DiffFile.addedLines (f : DiffFile) : Nat :=
  (f.fragments.map fragAdded).sum

/-- `File.DeletedLines` as computed by `diff.Parse`. -/
def DiffFile.deletedLines (f : DiffFile) : Nat :=
  (f.fragments.map fragDeleted).sum

/-- Lines of a fragment advancing the old-file counter (context or delete). -/
def countOldSteps (lns : List DiffLine) : Nat :=
  (lns.filter (fun l => l.op.isContext || l.op.isDelete)).length

/-- Lines of a fragment advancing the new-file counter (context or add). -/
def countNewSteps (lns : List DiffLine) : Nat :=
  (lns.filter (fun l => l.op.isContext || l.op.isAdd)).length

/-- `File.Name` (`internal/diff/diff.go`): display name resolution. -/
def DiffFile.name (f : DiffFile) : String :=
  if f.isRenamed then f.oldName ++ " → " ++ f.newName
  else if f.isNew then f.newName
  else if f.isDeleted then f.oldName
  else if f.newName ≠ "" then f.newName
  else f.oldName

/-- `DiffSet.Stats`: aggregate (files, added, deleted). -/
def DiffSet.stats (ds : DiffSet) : Nat × Nat × Nat :=
  (ds.files.length,
   (ds.files.map DiffFile.addedLines).sum,
   (ds.files.map DiffFile.deletedLines).sum)

/-! ## Character-list utilities (Go `strings` helpers) -/

/-- `strings.HasPrefix` on character lists (pattern first). -/
def leadsWith : List Char → List Char → Bool
  | [], _ => true
  | _ :: _, [] => false
  | a :: as, b :: bs => a == b && leadsWith as bs

/-- Strip a leading pattern, or fail. -/
def dropPre? : List Char → List Char → Option (List Char)
  | [], s => some s
  | _ :: _, [] => none
  | a :: as, b :: bs => if a == b then dropPre? as bs else none

/-- `strings.Contains` on character lists (needle first). -/
def hasSub (sub : List Char) : List Char → Bool
  | [] => leadsWith sub []
  | c :: t => leadsWith sub (c :: t) || hasSub sub t

/-- Split at the first occurrence of a non-empty separator. -/
def splitFirstSub (sep : List Char) : List Char → Option (List Char × List Char)
  | [] => none
  | c :: t =>
    if leadsWith sep (c :: t) then some ([], (c :: t).drop sep.length)
    else (splitFirstSub sep t).map (fun p => (c :: p.1, p.2))

/-- String wrapper for `leadsWith` (`strings.HasPrefix`). -/
def strHasPre (pre s : String) : Bool := leadsWith pre.data s.data

/-- String wrapper for `dropPre?`. -/
def strDropPre? (pre s : String) : Option String :=
  (dropPre? pre.data s.data).map String.mk

/-- `strings.Contains`. -/
def strHas (s sub : String) : Bool := hasSub sub.data s.data

/-- `strings.TrimPrefix`. -/
def strTrimPre (s pre : String) : String :=
  match dropPre? pre.data s.data with
  | some r => String.mk r
  | none => s

/-- `strings.HasSuffix`. -/
def strHasSuf (s suf : String) : Bool :=
  leadsWith suf.data.reverse s.data.reverse

/-- `strings.TrimSuffix`. -/
def strTrimSuf (s suf : String) : String :=
  if strHasSuf s suf then String.mk (s.data.take (s.data.length - suf.data.length)) else s

/-- ASCII whitespace recognized by `strings.TrimSpace` on the inputs we
model (space, tab, newline, carriage return, vertical tab, form feed). -/
def wsChar (c : Char) : Bool :=
  c == ' ' || c == '\t' || c == '\n' || c == '\r' || c == '\x0b' || c == '\x0c'

/-- `strings.TrimSpace`. -/
def strTrimSpace (s : String) : String :=
  String.mk (((s.data.dropWhile wsChar).reverse.dropWhile wsChar).reverse)

/-- Trim characters of a cutset from both ends (`strings.Trim`). -/
def strTrimSet (s : String) (cut : List Char) : String :=
  String.mk (((s.data.dropWhile (cut.contains ·)).reverse.dropWhile (cut.contains ·)).reverse)

/-- `strings.Fields`: split on whitespace runs. -/
def fieldsAux : List Char → List Char → List String
  | acc, [] => if acc.isEmpty then [] else [String.mk acc.reverse]
  | acc, c :: t =>
    if wsChar c then
      (if acc.isEmpty then [] else [String.mk acc.reverse]) ++ fieldsAux [] t
    else fieldsAux (c :: acc) t

/-- `strings.Fields`. -/
def strFields (s : String) : List String := fieldsAux [] s.data

/-- `strings.SplitN(s, sep, 2)` for a non-empty separator: one or two parts. -/
def strSplit2 (s sep : String) : List String :=
  match splitFirstSub sep.data s.data with
  | some (a, b) => [String.mk a, String.mk b]
  | none => [s]

/-- `strings.Index(s, sub)`: position of the first occurrence, or none. -/
def strIdxOf? (s sub : String) : Option Nat :=
  (splitFirstSub sub.data s.data).map (fun p => p.1.length)

/-- `strings.Join(parts, sep)`. -/
def strJoin (parts : List String) (sep : String) : String :=
  String.intercalate sep parts

/-! ## Decimal rendering (`fmt.Sprintf("%d", n)`) and parsing -/

/-- Decimal digit value of a character, if it is a digit. -/
def digitVal? (c : Char) : Option Nat :=
  if 48 ≤ c.toNat && c.toNat ≤ 57 then some (c.toNat - 48) else none

/-- Digit-consuming loop of `readNat`. -/
def readNatAux (acc : Nat) : List Char → Nat × List Char
  | [] => (acc, [])
  | c :: t =>
    match digitVal? c with
    | none => (acc, c :: t)
    | some d => readNatAux (10 * acc + d) t

/-- Read a decimal number from the head of a character list (at least one
digit required), returning the value and the rest. -/
def readNat : List Char → Option (Nat × List Char)
  | [] => none
  | c :: t =>
    match digitVal? c with
    | none => none
    | some d => some (readNatAux d t)

/-- Fueled digit emitter (fuel `n + 1` always suffices). -/
def natCharsCore : Nat → Nat → List Char → List Char
  | 0, _, acc => acc
  | fuel + 1, n, acc =>
    if n < 10 then Char.ofNat (48 + n) :: acc
    else natCharsCore fuel (n / 10) (Char.ofNat (48 + n % 10) :: acc)

/-- Decimal digits of a natural number, most significant first. -/
def natChars (n : Nat) : List Char := natCharsCore (n + 1) n []

/-- Decimal string of a natural number. -/
def natStr (n : Nat) : String := String.mk (natChars n)

/-! ## The diff parser

Modelled from the spec: `gitdiff.Parse` (third-party `go-gitdiff` library,
wrapped by `diff.Parse`; the library sources are not part of this
repository).  The grammar follows spec §6 "Patch text format" and the spec
§3 fragment numbering contract: a hunk body is delimited by the header's
line counts (context lines consume one old and one new slot, deletes one
old slot, adds one new slot), and a count mismatch is a parse error.
Unrecognized lines outside a file header/hunk are treated as preamble and
skipped, matching the wrapped parser's preamble behaviour. -/

/-- Mutable state accumulated while reading one file's header lines. -/
structure FileHeaderState where
  oldName : String
  newName : String
  isNew : Bool
  isDeleted : Bool
  isRenamed : Bool
  isBinary : Bool

/-- Classification of one header line. -/
inductive HeaderKind where
  | fileStart
  | hunk
  | oldNameLine (rest : String)
  | newNameLine (rest : String)
  | newFileMode
  | deletedFileMode
  | renameFrom (n : String)
  | renameTo (n : String)
  | binaryMark
  | skipLine
  | other

/-- Classify one line inside a file header section. -/
def classifyHeader (l : String) : HeaderKind :=
  if strHasPre "diff --git " l then .fileStart
  else if strHasPre "@@ -" l then .hunk
  else if strHasPre "--- " l then .oldNameLine (String.mk (l.data.drop 4))
  else if strHasPre "+++ " l then .newNameLine (String.mk (l.data.drop 4))
  else if strHasPre "new file mode" l then .newFileMode
  else if strHasPre "deleted file mode" l then .deletedFileMode
  else if strHasPre "rename from " l then .renameFrom (String.mk (l.data.drop 12))
  else if strHasPre "rename to " l then .renameTo (String.mk (l.data.drop 10))
  else if strHasPre "old mode" l then .skipLine
  else if strHasPre "new mode" l then .skipLine
  else if strHasPre "index " l then .skipLine
  else if strHasPre "similarity index" l then .skipLine
  else if strHasPre "dissimilarity index" l then .skipLine
  else if strHasPre "copy from " l then .skipLine
  else if strHasPre "copy to " l then .skipLine
  else if strHasPre "Binary files " l then .binaryMark
  else if strHasPre "GIT binary patch" l then .binaryMark
  else .other

/-- Name extraction from a `diff --git a/<X> b/<Y>` line; an unresolvable
line leaves both names empty (later header lines override them). -/
def gitHeaderNames (l : String) : String × String :=
  match dropPre? "diff --git a/".data l.data with
  | none => ("", "")
  | some rest =>
    match splitFirstSub " b/".data rest with
    | none => ("", "")
    | some (x, y) => (String.mk x, String.mk y)

/-- Initial header state for a `diff --git` line. -/
def initHeaderState (l : String) : FileHeaderState :=
  let p := gitHeaderNames l
  ⟨p.1, p.2, false, false, false, false⟩

/-- Resolve the file name on a `--- ` line: `/dev/null` clears the name,
otherwise the `a/` prefix is stripped; anything else is a malformed header. -/
def parseNameTail (marker : String) (rest : String) : Except String String :=
  if rest = "/dev/null" then .ok ""
  else
    match strDropPre? marker rest with
    | some n => .ok n
    | none => .error "malformed file name header"

/-- Final validation of a file header (gitdiff rejects headers with missing
or contradictory filename information). -/
def mkDiffFile (st : FileHeaderState) (frags : List TextFragment) :
    Except String DiffFile :=
  if st.isNew && st.isDeleted then .error "file both created and deleted"
  else if st.isNew && st.newName == "" then .error "missing filename information"
  else if st.isDeleted && st.oldName == "" then .error "missing filename information"
  else if st.oldName == "" && !st.isNew then .error "missing filename information"
  else if st.newName == "" && !st.isDeleted then .error "missing filename information"
  else .ok ⟨st.oldName, st.newName, st.isNew, st.isDeleted, st.isRenamed, st.isBinary, frags⟩

/-- Read the `,count` part of a hunk range (count defaults to 1). -/
def readCount : List Char → Option (Nat × List Char)
  | ',' :: t =>
    match readNat t with
    | some r => some r
    | none => none
  | cs => some (1, cs)

/-- Parse a `@@ -old,oldLines +new,newLines @@ [comment]` hunk header. -/
def parseHunkHeader (l : String) : Option (Nat × Nat × Nat × Nat × String) := do
  let r0 ← dropPre? "@@ -".data l.data
  let (o, r1) ← readNat r0
  let (ol, r2) ← readCount r1
  let r3 ← dropPre? " +".data r2
  let (n, r4) ← readNat r3
  let (nl, r5) ← readCount r4
  let r6 ← dropPre? " @@".data r5
  match r6 with
  | ' ' :: cs => some (o, ol, n, nl, String.mk cs)
  | cs => some (o, ol, n, nl, String.mk cs)

/-- A fragment being accumulated: header data, lines so far, and the
remaining old/new line slots. -/
structure PFrag where
  oldPosition : Nat
  oldLines : Nat
  newPosition : Nat
  newLines : Nat
  comment : String
  lines : List DiffLine
  oldR : Nat
  newR : Nat

/-- Turn a completed fragment accumulator into a `TextFragment`. -/
def finishFrag (fr : PFrag) : TextFragment :=
  ⟨fr.oldPosition, fr.oldLines, fr.newPosition, fr.newLines, fr.comment, fr.lines⟩

/-- Parser state: outside any file, inside a file header, or inside a hunk
body.  `files` holds the completed files in input order. -/
inductive ParseState where
  | top (files : List DiffFile)
  | inFile (files : List DiffFile) (hdr : FileHeaderState) (frags : List TextFragment)
  | inBody (files : List DiffFile) (hdr : FileHeaderState)
      (frags : List TextFragment) (fr : PFrag)

/-- Append a body line slot; when both counts reach zero the fragment is
complete and parsing returns to the file-header level. -/
def completeOr (files : List DiffFile) (hdr : FileHeaderState)
    (frags : List TextFragment) (fr : PFrag) : ParseState :=
  if fr.oldR == 0 && fr.newR == 0 then .inFile files hdr (frags ++ [finishFrag fr])
  else .inBody files hdr frags fr

/-- Consume one line inside a hunk body: ` `/`-`/`+`-prefixed lines fill
old/new slots, `\`-prefixed no-newline markers are skipped, anything else
(or a slot overflow) is a parse error. -/
def stepBody (files : List DiffFile) (hdr : FileHeaderState)
    (frags : List TextFragment) (fr : PFrag) (l : String) :
    Except String ParseState :=
  match l.data with
  | '\\' :: _ => .ok (.inBody files hdr frags fr)
  | ' ' :: cs =>
    if fr.oldR == 0 || fr.newR == 0 then .error "fragment line counts exceeded"
    else .ok (completeOr files hdr frags
      { fr with lines := fr.lines ++ [⟨.context, String.mk cs⟩],
                oldR := fr.oldR - 1, newR := fr.newR - 1 })
  | '-' :: cs =>
    if fr.oldR == 0 then .error "fragment line counts exceeded"
    else .ok (completeOr files hdr frags
      { fr with lines := fr.lines ++ [⟨.delete, String.mk cs⟩], oldR := fr.oldR - 1 })
  | '+' :: cs =>
    if fr.newR == 0 then .error "fragment line counts exceeded"
    else .ok (completeOr files hdr frags
      { fr with lines := fr.lines ++ [⟨.add, String.mk cs⟩], newR := fr.newR - 1 })
  | _ => .error "unrecognized fragment body line"

/-- Consume one line inside a file-header section. -/
def stepFile (files : List DiffFile) (hdr : FileHeaderState)
    (frags : List TextFragment) (l : String) : Except String ParseState :=
  match classifyHeader l with
  | .fileStart =>
    match mkDiffFile hdr frags with
    | .error e => .error e
    | .ok f => .ok (.inFile (files ++ [f]) (initHeaderState l) [])
  | .hunk =>
    match parseHunkHeader l with
    | none => .error "malformed fragment header"
    | some (o, ol, n, nl, cm) =>
      .ok (completeOr files hdr frags ⟨o, ol, n, nl, cm, [], ol, nl⟩)
  | .oldNameLine t =>
    if frags.isEmpty then
      match parseNameTail "a/" t with
      | .error e => .error e
      | .ok n => .ok (.inFile files { hdr with oldName := n } frags)
    else
      match mkDiffFile hdr frags with
      | .error e => .error e
      | .ok f => .ok (.top (files ++ [f]))
  | .newNameLine t =>
    if frags.isEmpty then
      match parseNameTail "b/" t with
      | .error e => .error e
      | .ok n => .ok (.inFile files { hdr with newName := n } frags)
    else
      match mkDiffFile hdr frags with
      | .error e => .error e
      | .ok f => .ok (.top (files ++ [f]))
  | .newFileMode =>
    if frags.isEmpty then .ok (.inFile files { hdr with isNew := true } frags)
    else
      match mkDiffFile hdr frags with
      | .error e => .error e
      | .ok f => .ok (.top (files ++ [f]))
  | .deletedFileMode =>
    if frags.isEmpty then .ok (.inFile files { hdr with isDeleted := true } frags)
    else
      match mkDiffFile hdr frags with
      | .error e => .error e
      | .ok f => .ok (.top (files ++ [f]))
  | .renameFrom n =>
    if frags.isEmpty then
      .ok (.inFile files { hdr with oldName := n, isRenamed := true } frags)
    else
      match mkDiffFile hdr frags with
      | .error e => .error e
      | .ok f => .ok (.top (files ++ [f]))
  | .renameTo n =>
    if frags.isEmpty then
      .ok (.inFile files { hdr with newName := n, isRenamed := true } frags)
    else
      match mkDiffFile hdr frags with
      | .error e => .error e
      | .ok f => .ok (.top (files ++ [f]))
  | .binaryMark =>
    if frags.isEmpty then .ok (.inFile files { hdr with isBinary := true } frags)
    else
      match mkDiffFile hdr frags with
      | .error e => .error e
      | .ok f => .ok (.top (files ++ [f]))
  | .skipLine =>
    if frags.isEmpty then .ok (.inFile files hdr frags)
    else
      match mkDiffFile hdr frags with
      | .error e => .error e
      | .ok f => .ok (.top (files ++ [f]))
  | .other =>
    match mkDiffFile hdr frags with
    | .error e => .error e
    | .ok f => .ok (.top (files ++ [f]))

/-- Consume one input line. -/
def stepLine (s : ParseState) (l : String) : Except String ParseState :=
  match s with
  | .top files =>
    if strHasPre "diff --git " l then .ok (.inFile files (initHeaderState l) [])
    else .ok (.top files)
  | .inFile files hdr frags => stepFile files hdr frags l
  | .inBody files hdr frags fr => stepBody files hdr frags fr l

/-- End of input: finalize the current file; an unfinished hunk body is a
parse error (its line counts were not satisfied). -/
def finishParse (s : ParseState) : Except String (List DiffFile) :=
  match s with
  | .top files => .ok files
  | .inFile files hdr frags =>
    match mkDiffFile hdr frags with
    | .error e => .error e
    | .ok f => .ok (files ++ [f])
  | .inBody _ _ _ _ => .error "fragment body ended before line counts were satisfied"

/-- Top level of the modelled parser. -/
def parseFiles (ls : List String) : Except String (List DiffFile) :=
  (ls.foldlM stepLine (.top [])) >>= finishParse

/-- `diff.Parse` over the line representation of the raw text. -/
def Parse (raw : List String) : Except String DiffSet :=
  (parseFiles raw).map DiffSet.mk

/-! ## Review results and patch reconstruction (`internal/tui/apply.go`) -/

/-- `model.ReviewDecision`. -/
inductive ReviewDecision where
  | pending
  | approved
  | rejected
  | edited
deriving DecidableEq

/-- Read of a Go `map[int]ReviewDecision` at a key: a missing entry yields
the zero value `DecisionPending`. -/
def decisionAt (dec : Nat → Option ReviewDecision) (i : Nat) : ReviewDecision :=
  (dec i).getD .pending

/-- `tui.ReviewResult`. -/
structure ReviewResult where
  decisions : Nat → Option ReviewDecision
  files : List DiffFile

/-- The indexed loop of `ApprovedFiles`. -/
def approvedFilesAux (dec : Nat → Option ReviewDecision) : List DiffFile → Nat → List DiffFile
  | [], _ => []
  | f :: rest, i =>
    (if decisionAt dec i = .approved then [f] else []) ++ approvedFilesAux dec rest (i + 1)

/-- `ReviewResult.ApprovedFiles`. -/
def ReviewResult.approvedFiles (r : ReviewResult) : List DiffFile :=
  approvedFilesAux r.decisions r.files 0

/-- The indexed loop of `RejectedFiles`. -/
def rejectedFilesAux (dec : Nat → Option ReviewDecision) : List DiffFile → Nat → List DiffFile
  | [], _ => []
  | f :: rest, i =>
    (if decisionAt dec i = .rejected then [f] else []) ++ rejectedFilesAux dec rest (i + 1)

/-- `ReviewResult.RejectedFiles`. -/
def ReviewResult.rejectedFiles (r : ReviewResult) : List DiffFile :=
  rejectedFilesAux r.decisions r.files 0

/-- One output line of `formatFilePatch`'s body loop: the operation prefix
followed by the line text (`formatFilePatch` appends the newline that our
line representation leaves implicit). -/
def lineOut (l : DiffLine) : String :=
  (match l.op with
   | .context => " "
   | .delete => "-"
   | .add => "+") ++ l.text

/-- The `@@ -old,oldLines +new,newLines @@[ comment]` line emitted by
`formatFilePatch`. -/
def fragHeaderOut (fr : TextFragment) : String :=
  "@@ -" ++ natStr fr.oldPosition ++ "," ++ natStr fr.oldLines ++
    " +" ++ natStr fr.newPosition ++ "," ++ natStr fr.newLines ++ " @@" ++
    (if fr.comment = "" then "" else " " ++ fr.comment)

/-- Lines emitted by `formatFilePatch` for one fragment. -/
def fragOut (fr : TextFragment) : List String :=
  fragHeaderOut fr :: fr.lines.map lineOut

/-- `formatFilePatch` (`internal/tui/apply.go`), as the list of lines it
writes. -/
def formatFilePatchLines (f : DiffFile) : List String :=
  let oldN := if f.oldName = "" then "/dev/null" else f.oldName
  let newN := if f.newName = "" then "/dev/null" else f.newName
  ["diff --git a/" ++ f.name ++ " b/" ++ f.name] ++
    (if f.isNew then ["new file mode 100644"]
     else if f.isDeleted then ["deleted file mode 100644"]
     else []) ++
    ["--- a/" ++ oldN, "+++ b/" ++ newN] ++
    f.fragments.flatMap fragOut

/-- `ReviewResult.GeneratePatch`, as the list of lines of the patch text it
builds (the empty list is the empty string). -/
def ReviewResult.generatePatchLines (r : ReviewResult) : List String :=
  if r.approvedFiles.length = 0 then []
  else r.approvedFiles.flatMap formatFilePatchLines

/-! ## The interactive review model (`internal/tui/tui.go`)

Only the decision-relevant state is embedded: the file list, the active
file index, the scroll offsets that `advanceAfterDecision` resets, and the
decision mapping.  The rendering refresh calls (`updateLines`,
`updateTraceSteps`, `updateFileFindings`) recompute display caches from
this state and are omitted. -/

structure TuiModel where
  files : List DiffFile
  fileIndex : Nat
  scrollOffset : Nat
  traceScroll : Nat
  decisions : Nat → Option ReviewDecision

/-- The scan loop inside `advanceAfterDecision`: the first listed index
with no recorded decision. -/
def scanFirstUndecided (dec : Nat → Option ReviewDecision) : List Nat → Option Nat
  | [] => none
  | i :: rest => if dec i = none then some i else scanFirstUndecided dec rest

/-- `advanceAfterDecision`: scan the indices `fileIndex+1 .. len-1` for
the first undecided file and move there (resetting scroll state), or stay
put. -/
def advanceAfterDecision (m : TuiModel) : TuiModel :=
  match scanFirstUndecided m.decisions
      (List.range' (m.fileIndex + 1) (m.files.length - (m.fileIndex + 1))) with
  | some j => { m with fileIndex := j, scrollOffset := 0, traceScroll := 0 }
  | none => m

/-- Point update of a decision mapping (Go map assignment). -/
def setDecision (dec : Nat → Option ReviewDecision) (i : Nat) (d : ReviewDecision) :
    Nat → Option ReviewDecision :=
  fun j => if j = i then some d else dec j

/-- Point removal from a decision mapping (Go `delete`). -/
def delDecision (dec : Nat → Option ReviewDecision) (i : Nat) :
    Nat → Option ReviewDecision :=
  fun j => if j = i then none else dec j

/-- The `keys.Approve` branch of `Update`: record approval for the active
file, then auto-advance. -/
def approveKey (m : TuiModel) : TuiModel :=
  if m.files.length > 0 then
    advanceAfterDecision { m with decisions := setDecision m.decisions m.fileIndex .approved }
  else m

/-- The `keys.Reject` branch of `Update`. -/
def rejectKey (m : TuiModel) : TuiModel :=
  if m.files.length > 0 then
    advanceAfterDecision { m with decisions := setDecision m.decisions m.fileIndex .rejected }
  else m

/-- The `keys.Undo` branch of `Update`: drop the active file's decision. -/
def undoKey (m : TuiModel) : TuiModel :=
  if m.files.length > 0 then
    { m with decisions := delDecision m.decisions m.fileIndex }
  else m

/-- One step of `DecisionCounts`' switch statement. -/
def countStep (acc : Nat × Nat × Nat) (d : ReviewDecision) : Nat × Nat × Nat :=
  match d with
  | .approved => (acc.1 + 1, acc.2.1, acc.2.2)
  | .rejected => (acc.1, acc.2.1 + 1, acc.2.2)
  | _ => (acc.1, acc.2.1, acc.2.2 + 1)

/-- `Model.DecisionCounts`: scan every file index once, reading the
decision map with its zero value for missing entries, and bucket into
(approved, rejected, pending). -/
def decisionCounts (m : TuiModel) : Nat × Nat × Nat :=
  (List.range m.files.length).foldl
    (fun acc i => countStep acc (decisionAt m.decisions i)) (0, 0, 0)

/-- A decision event of the review session (the approve/reject/undo key
handlers of `Update`). -/
inductive TuiOp where
  | approve
  | reject
  | undo

/-- Apply one decision event. -/
def applyTuiOp (m : TuiModel) : TuiOp → TuiModel
  | .approve => approveKey m
  | .reject => rejectKey m
  | .undo => undoKey m

/-- Apply a finite sequence of decision events. -/
def applyTuiOps (m : TuiModel) (ops : List TuiOp) : TuiModel :=
  ops.foldl applyTuiOp m

/-! ## The WebSocket session protocol (`internal/api/ws.go`) -/

/-- Outbound WebSocket messages relevant to decisions (`decision`,
`summary` and `error` message types). -/
inductive WsOut where
  | errorMsg (message : String)
  | decisionMsg (fileIndex : Int) (decision : String)
  | summaryMsg (approved rejected pending : Nat) (files : List (String × String))
deriving DecidableEq

/-- Session state held per WebSocket connection (`reviewSession`); the
decision map key type is Go `int`. -/
structure WsSession where
  ds : Option DiffSet
  decisions : Int → Option ReviewDecision

/-- Point update of a session decision mapping. -/
def wsSetDecision (dec : Int → Option ReviewDecision) (i : Int) (d : ReviewDecision) :
    Int → Option ReviewDecision :=
  fun j => if j = i then some d else dec j

/-- Point removal from a session decision mapping. -/
def wsDelDecision (dec : Int → Option ReviewDecision) (i : Int) :
    Int → Option ReviewDecision :=
  fun j => if j = i then none else dec j

/-- `handleWSDecision`: range-checked approve/reject. -/
def handleWSDecision (s : WsSession) (fileIndex : Int) (decision : ReviewDecision) :
    WsSession × WsOut :=
  match s.ds with
  | none => (s, .errorMsg "no diff loaded")
  | some ds =>
    if fileIndex < 0 || fileIndex ≥ (ds.files.length : Int) then
      (s, .errorMsg "file_index out of range")
    else
      ({ s with decisions := wsSetDecision s.decisions fileIndex decision },
       .decisionMsg fileIndex
         (if decision = .rejected then "rejected" else "approved"))

/-- `handleWSUndo`: deletes the entry and confirms `pending`; note the
absence of any range check on the index. -/
def handleWSUndo (s : WsSession) (fileIndex : Int) : WsSession × WsOut :=
  match s.ds with
  | none => (s, .errorMsg "no diff loaded")
  | some _ =>
    ({ s with decisions := wsDelDecision s.decisions fileIndex },
     .decisionMsg fileIndex "pending")

/-- The per-file decision string of `handleWSFinish`'s switch. -/
def wsDecisionString (d : ReviewDecision) : String :=
  match d with
  | .approved => "approved"
  | .rejected => "rejected"
  | _ => "pending"

/-- Session map read at a file index (missing entry is the zero value). -/
def wsDecisionAt (dec : Int → Option ReviewDecision) (i : Int) : ReviewDecision :=
  (dec i).getD .pending

/-- `handleWSFinish`: count decisions over the loaded files and emit the
summary, or an error when no diff is loaded.  The session is unchanged. -/
def handleWSFinish (s : WsSession) : WsOut :=
  match s.ds with
  | none => .errorMsg "no diff loaded"
  | some ds =>
    let entries := ds.files.enum.map
      (fun p => ((p.2).name, wsDecisionString (wsDecisionAt s.decisions p.1)))
    let approved := (entries.filter (fun e => e.2 = "approved")).length
    let rejected := (entries.filter (fun e => e.2 = "rejected")).length
    let pending := (entries.filter (fun e => e.2 = "pending")).length
    .summaryMsg approved rejected pending entries

/-! ## The analysis engine (`internal/analysis`) -/

/-- `model.Severity`. -/
inductive Severity where
  | info
  | warning
  | error
deriving DecidableEq

/-- `model.RiskLevel`. -/
inductive RiskLevel where
  | info
  | low
  | medium
  | high
  | critical
deriving DecidableEq

/-- The integer value of a `RiskLevel` constant (Go enum ordering). -/
def RiskLevel.toNat : RiskLevel → Nat
  | .info => 0
  | .low => 1
  | .medium => 2
  | .high => 3
  | .critical => 4

/-- `analysis.Finding`. -/
structure Finding where
  pass : String
  file : String
  line : Nat
  message : String
  severity : Severity
  risk : RiskLevel
deriving DecidableEq

/-- `Results.MaxRisk`: highest risk among the findings, `info` if none. -/
def maxRiskOf (findings : List Finding) : RiskLevel :=
  findings.foldl (fun m f => if m.toNat < f.risk.toNat then f.risk else m) .info

/-- Abstract interpretation of Go's `regexp` engine over the pattern
source strings appearing in the analysis tables: `rmatch` is
`MatchString`, `rfind` is `FindString` (the matched text, if any), `rsub`
is `FindStringSubmatch` restricted to its first capture group. -/
structure RegexEngine where
  rmatch : String → String → Bool
  rfind : String → String → Option String
  rsub : String → String → Option String

/-- The repository files visible to the passes (path, contents), listed in
the lexical order in which `filepath.Walk`/`filepath.Glob` enumerate
them. -/
abbrev FileSys : Type := List (String × String)

/-- Generic per-fragment line scan with a running line counter: `inc`
says which operations advance the counter, `step` emits results for one
line at its counter value (before the increment). -/
def scanFrag (inc : LineOp → Bool) (step : Nat → DiffLine → List α) :
    Nat → List DiffLine → List α
  | _, [] => []
  | n, l :: rest => step n l ++ scanFrag inc step (n + (if inc l.op then 1 else 0)) rest

/-- Scan all fragments of a file with the new-file line counter (adds and
context advance it), starting at each fragment's `NewPosition`. -/
def scanNew (step : Nat → DiffLine → List α) (f : DiffFile) : List α :=
  f.fragments.flatMap
    (fun fr => scanFrag (fun op => op.isAdd || op.isContext) step fr.newPosition fr.lines)

/-- Scan all fragments with the old-file line counter (deletes and context
advance it), starting at each fragment's `OldPosition`. -/
def scanOld (step : Nat → DiffLine → List α) (f : DiffFile) : List α :=
  f.fragments.flatMap
    (fun fr => scanFrag (fun op => op.isDelete || op.isContext) step fr.oldPosition fr.lines)

/-! ### Dependency pass (`deps.go`) -/

/-- `depFiles`: manifest/lockfile basename to ecosystem. -/
def depFilesTable : List (String × String) :=
  [("go.mod", "go"), ("go.sum", "go"),
   ("package.json", "npm"), ("package-lock.json", "npm"),
   ("yarn.lock", "npm"), ("pnpm-lock.yaml", "npm"),
   ("Cargo.toml", "cargo"), ("Cargo.lock", "cargo"),
   ("requirements.txt", "pip"), ("Pipfile", "pip"), ("Pipfile.lock", "pip"),
   ("pyproject.toml", "pip"), ("poetry.lock", "pip"),
   ("Gemfile", "gem"), ("Gemfile.lock", "gem"),
   ("mix.exs", "hex"), ("mix.lock", "hex")]

/-- `baseName`: path component after the last slash. -/
def baseName (p : String) : String :=
  String.mk ((p.data.reverse.takeWhile (fun c => c != '/')).reverse)

/-- The `pip` case of `parseDepLine`: cut at the first listed version
specifier occurring at a positive index; otherwise the whole line when it
contains no space. -/
def pipSplitSpec (line : String) : List String → String
  | [] => if strHas line " " then "" else line
  | sep :: rest =>
    match strIdxOf? line sep with
    | some idx =>
      if idx > 0 then strTrimSpace (String.mk (line.data.take idx))
      else pipSplitSpec line rest
    | none => pipSplitSpec line rest

/-- `parseDepLine`: ecosystem-specific dependency-name grammar over one
added line. -/
def parseDepLine (line0 : String) (eco : String) : String :=
  if eco = "go" then
    let line := strTrimSpace line0
    if strHasPre "require " line then
      let parts := strFields line
      if parts.length ≥ 3 then parts.get! 1 else ""
    else
      let parts := strFields line
      if parts.length ≥ 2 && strHas (parts.get! 0) "/" && !strHasPre "//" (parts.get! 0) then
        parts.get! 0
      else ""
  else if eco = "npm" then
    let line := strTrimSuf (strTrimSpace line0) ","
    if strHas line ":" then
      let parts := strSplit2 line ":"
      let name := strTrimSet (parts.get! 0) ['"', ' ']
      if name ≠ "" && !strHasPre "@types/" name &&
          name ≠ "dependencies" && name ≠ "devDependencies" &&
          name ≠ "peerDependencies" && name ≠ "name" && name ≠ "version" then
        name
      else ""
    else ""
  else if eco = "cargo" then
    let line := strTrimSpace line0
    if strHas line "=" && !strHasPre "[" line && !strHasPre "#" line then
      let parts := strSplit2 line "="
      let name := strTrimSpace (parts.get! 0)
      if name ≠ "" && name ≠ "name" && name ≠ "version" && name ≠ "edition" &&
          name ≠ "authors" && name ≠ "description" && name ≠ "license" &&
          !strHas name "." then
        name
      else ""
    else ""
  else if eco = "pip" then
    let line := strTrimSpace line0
    if line = "" || strHasPre "#" line || strHasPre "-" line then ""
    else pipSplitSpec line ["==", ">=", "<=", "!=", "~=", ">"]
  else if eco = "gem" then
    let line := strTrimSpace line0
    if strHasPre "gem " line then
      let parts := strSplit2 line ","
      strTrimSet (strTrimPre (parts.get! 0) "gem ") ['\'', '"', ' ']
    else ""
  else if eco = "hex" then
    let line := strTrimSpace line0
    if strHasPre "\x7b:" line then
      match strIdxOf? line "," with
      | some e => if e > 2 then strTrimPre (String.mk (line.data.take e)) "\x7b:" else ""
      | none => ""
    else ""
  else ""

/-- `extractNewDeps`: dependency names (with line numbers) from added
lines of one manifest file. -/
def extractNewDeps (f : DiffFile) (eco : String) : List (String × Nat) :=
  scanNew (fun n l =>
    if l.op.isAdd then
      let dep := parseDepLine (strTrimSpace l.text) eco
      if dep ≠ "" then [(dep, n)] else []
    else []) f

/-- `NewDependencyPass`. -/
def NewDependencyPass (ds : DiffSet) : List Finding :=
  ds.files.flatMap (fun f =>
    match depFilesTable.lookup (baseName f.name) with
    | none => []
    | some eco =>
      (extractNewDeps f eco).map (fun d =>
        ⟨"deps", f.name, d.2, "New " ++ eco ++ " dependency: " ++ d.1,
         .warning, .medium⟩))

/-! ### Security-surface pass (`security.go`) -/

/-- One row of the `securityPatterns` table. -/
structure SecPatternGroup where
  category : String
  patterns : List String
  risk : RiskLevel

/-- The `securityPatterns` table (pattern sources verbatim; `\x7b`/`\x7d`
denote literal braces). -/
def securityPatterns : List SecPatternGroup :=
  [⟨"authentication",
    ["(?i)(auth|login|logout|signin|signup|password|credential|token|jwt|oauth|session|cookie)"],
    .high⟩,
   ⟨"authorization",
    ["(?i)(permission|role|access.?control|rbac|acl|authorize|forbidden|is.?admin|can.?access)"],
    .high⟩,
   ⟨"SQL/database",
    ["(?i)(db\\.exec|db\\.query|\\.prepare\\(|raw.?sql|sql\\.)",
     "(?i)(\\bSELECT\\b|\\bINSERT\\b|\\bUPDATE\\b|\\bDELETE\\b|\\bDROP\\b|\\bALTER\\b)\\s",
     "(?i)(connection\\.execute|cursor\\.execute)"],
    .high⟩,
   ⟨"cryptography",
    ["(?i)(encrypt|decrypt|hash|hmac|cipher|aes|rsa|sha256|sha512|bcrypt|argon|scrypt|pbkdf)",
     "(?i)(private.?key|public.?key|secret.?key|signing.?key|crypto\\.)"],
    .high⟩,
   ⟨"file system",
    ["(?i)(os\\.Remove|os\\.Rename|os\\.Chmod|os\\.Chown|os\\.MkdirAll|os\\.WriteFile|ioutil\\.WriteFile)",
     "(?i)(unlink|rmdir|chmod|chown|write_file|open.*[\\\"']w)",
     "(?i)(path\\.join|filepath\\.join).*\\.\\.|\\.\\.\\/"],
    .medium⟩,
   ⟨"environment/secrets",
    ["(?i)(os\\.Getenv|os\\.environ|process\\.env|ENV\\[|getenv)",
     "(?i)(api.?key|secret|password|token)\\s*[:=]",
     "(?i)(PRIVATE|SECRET|PASSWORD|TOKEN|KEY)\\s*=\\s*[\"']"],
    .medium⟩,
   ⟨"network/HTTP",
    ["(?i)(http\\.ListenAndServe|\\.listen\\(|cors|origin|allow.?origin)",
     "(?i)(tls\\.Config|InsecureSkipVerify|disable.?ssl|verify.?ssl.*false)"],
    .medium⟩,
   ⟨"subprocess/exec",
    ["(?i)(exec\\.Command|os\\.system|subprocess|child_process|shell_exec|system\\()",
     "(?i)(eval\\(|exec\\(|compile\\()"],
    .high⟩]

/-- The comment-only-line test of `SecuritySurfacePass`. -/
def isCommentOnly (text : String) : Bool :=
  let trimmed := strTrimSpace text
  strHasPre "//" trimmed || strHasPre "#" trimmed ||
    strHasPre "*" trimmed || strHasPre "/*" trimmed

/-- `deduplicateFindings`: drop findings repeating a `file:line:message`
key (`seen` accumulates keys already emitted). -/
def dedupAux (seen : List String) : List Finding → List Finding
  | [] => []
  | f :: rest =>
    let key := f.file ++ ":" ++ natStr f.line ++ ":" ++ f.message
    if seen.contains key then dedupAux seen rest
    else f :: dedupAux (key :: seen) rest

/-- `deduplicateFindings`. -/
def deduplicateFindings (findings : List Finding) : List Finding :=
  dedupAux [] findings

/-- `SecuritySurfacePass`: scan added, non-comment lines against the
category table; the first matching pattern in a category yields that
category's single finding for the line (its content does not depend on
which pattern matched, so the `break` is the same as `any`); comment
lines advance the counter and produce nothing (the code's inner
increment-and-continue path has the same net effect as the shared
increment). -/
def SecuritySurfacePass (eng : RegexEngine) (ds : DiffSet) : List Finding :=
  deduplicateFindings
    (ds.files.flatMap (fun f =>
      scanNew (fun n l =>
        if l.op.isAdd then
          if isCommentOnly l.text then []
          else
            securityPatterns.flatMap (fun sp =>
              if sp.patterns.any (fun p => eng.rmatch p l.text) then
                [⟨"security", f.name, n,
                  "Security-sensitive change (" ++ sp.category ++ "): " ++
                    strTrimSpace l.text,
                  .warning, sp.risk⟩]
              else [])
        else []) f))

/-! ### Deleted-code pass (`deleted.go`) -/

/-- `funcDefPatterns` sources (language-specific definition heuristics). -/
def funcDefPatternSources : List String :=
  ["^\\s*func\\s+(\\w+)\\s*\\(",
   "^\\s*func\\s+\\([^)]+\\)\\s+(\\w+)\\s*\\(",
   "^\\s*def\\s+(\\w+)\\s*\\(",
   "^\\s*(?:export\\s+)?(?:async\\s+)?function\\s+(\\w+)\\s*\\(",
   "^\\s*(?:export\\s+)?(?:const|let|var)\\s+(\\w+)\\s*=\\s*(?:async\\s+)?\\(",
   "^\\s*def\\s+(\\w+)",
   "^\\s*(?:pub\\s+)?(?:async\\s+)?fn\\s+(\\w+)\\s*[(<]",
   "^\\s*(?:public|private|protected|static|final|abstract|override|async)\\s+.*?(\\w+)\\s*\\(",
   "^\\s*defp?\\s+(\\w+)\\s*[(\\n]"]

/-- First pattern of a list whose capture group matches the line
(`break` on first hit). -/
def firstPatSub (eng : RegexEngine) : List String → String → Option String
  | [], _ => none
  | p :: ps, text =>
    match eng.rsub p text with
    | some name => some name
    | none => firstPatSub eng ps text

/-- `extractDeletedFunctions`: function names (with old-file line numbers)
defined on deleted lines. -/
def extractDeletedFunctions (eng : RegexEngine) (f : DiffFile) : List (String × Nat) :=
  scanOld (fun n l =>
    if l.op.isDelete then
      match firstPatSub eng funcDefPatternSources l.text with
      | some name => [(name, n)]
      | none => []
    else []) f

/-- A `\w` word character (`[0-9A-Za-z_]`). -/
def wordChar (c : Char) : Bool :=
  ('0' ≤ c && c ≤ '9') || ('a' ≤ c && c ≤ 'z') || ('A' ≤ c && c ≤ 'Z') || c == '_'

/-- Left boundary check for a whole-word match. -/
def wwPrevOk (prev : Option Char) : Bool :=
  match prev with
  | none => true
  | some c => !(wordChar c)

/-- Right boundary check for a whole-word match. -/
def wwHeadOk (rest : List Char) : Bool :=
  match rest with
  | [] => true
  | c :: _ => !(wordChar c)

/-- Occurrences of `\b<name>\b` in content, scanning position by
position; because every character of `name` is a word character, matches
cannot overlap, so this equals the regexp engine's non-overlapping
`FindAll` count. -/
def countWWAux (name : List Char) (prev : Option Char) : List Char → Nat
  | [] => 0
  | c :: t =>
    (if wwPrevOk prev && leadsWith name (c :: t) && wwHeadOk ((c :: t).drop name.length)
     then 1 else 0) + countWWAux name (some c) t

/-- Whole-word occurrence count (`regexp \b<name>\b`, `FindAll`). -/
def countWW (name content : List Char) : Nat :=
  if name.isEmpty then 0 else countWWAux name none content

/-- Fueled worker for `compMatch` (every step consumes one unit, and the
total pattern + component length bounds the recursion depth). -/
def compMatchF : Nat → List Char → List Char → Bool
  | 0, _, _ => false
  | _ + 1, [], [] => true
  | _ + 1, [], _ :: _ => false
  | fuel + 1, '*' :: ps, s =>
    compMatchF fuel ps s ||
      (match s with
       | [] => false
       | _ :: t => compMatchF fuel ('*' :: ps) t)
  | fuel + 1, p :: ps, c :: t => p == c && compMatchF fuel ps t
  | _ + 1, _ :: _, [] => false

/-- `filepath.Match` on one path component, for the patterns used here
(literal characters and `*`; the conventions searched use no `?` or
character classes). -/
def compMatch (pat s : List Char) : Bool :=
  compMatchF (pat.length + s.length + 1) pat s

/-- Split a character list on a separator character. -/
def splitOnChar (c : Char) : List Char → List (List Char)
  | [] => [[]]
  | x :: t =>
    match splitOnChar c t with
    | r :: rs => if x == c then [] :: r :: rs else (x :: r) :: rs
    | [] => [[x]]

/-- Path components. -/
def splitSlash (s : String) : List String :=
  (splitOnChar '/' s.data).map String.mk

/-- `filepath.Glob`-style whole-path match: component-wise
`filepath.Match` (`*` never crosses a `/`, and `**` is not special — it
matches like `*`). -/
def globMatch (pat p : String) : Bool :=
  let pc := splitOnChar '/' pat.data
  let sc := splitOnChar '/' p.data
  pc.length == sc.length && (pc.zip sc).all (fun q => compMatch q.1 q.2)

/-- `filepath.Join` for the cleaned relative paths used in this model. -/
def pathJoin (a b : String) : String := a ++ "/" ++ b

/-- `filepath.Dir`. -/
def pathDir (p : String) : String :=
  let comps := splitSlash p
  if comps.length ≤ 1 then "." else strJoin comps.dropLast "/"

/-- `filepath.Rel(repoDir, p)` for paths below `repoDir`. -/
def relPath (repoDir p : String) : String :=
  strTrimPre p (repoDir ++ "/")

/-- `findTestReferences`: test files (three sibling naming conventions in
the changed file's directory, plus `dir/**/*_test.*`, which reaches
exactly one directory level deeper) containing a whole-word reference to
the function name.  The file system stands in for `filepath.Glob`'s
result set. -/
def findTestReferences (fs : FileSys) (repoDir filePath funcName : String) : List String :=
  if repoDir == "" then []
  else
    let dir := pathDir (pathJoin repoDir filePath)
    let testGlobs := [pathJoin dir "*_test.*", pathJoin dir "test_*",
                      pathJoin dir "*_spec.*",
                      pathJoin (pathJoin dir "**") "*_test.*"]
    testGlobs.flatMap (fun pat =>
      (fs.filter (fun e => globMatch pat e.1 && countWW funcName.data e.2.data > 0)).map
        (fun e => relPath repoDir e.1))

/-- `DeletedCodePass`: one finding per deleted function; `error`/`high`
when tests still reference it, `info`/`low` otherwise. -/
def DeletedCodePass (eng : RegexEngine) (fs : FileSys) (ds : DiffSet)
    (repoDir : String) : List Finding :=
  ds.files.flatMap (fun f =>
    (extractDeletedFunctions eng f).map (fun fn =>
      let testRefs := findTestReferences fs repoDir f.name fn.1
      if testRefs.length > 0 then
        ⟨"deleted", f.name, fn.2,
         "Deleted function \"" ++ fn.1 ++ "\" is referenced in tests: " ++
           strJoin testRefs ", ",
         .error, .high⟩
      else
        ⟨"deleted", f.name, fn.2, "Deleted function: " ++ fn.1, .info, .low⟩))

/-! ### Schema pass (`schema.go`) -/

/-- `schemaPatterns`: (pattern source, description). -/
def schemaPatterns : List (String × String) :=
  [("(?i)migrat", "database migration"),
   ("(?i)schema", "schema definition"),
   ("\\.proto$", "protobuf definition"),
   ("(?i)(openapi|swagger)\\.(ya?ml|json)$", "OpenAPI spec"),
   ("(?i)graphql$", "GraphQL schema"),
   ("\\.prisma$", "Prisma schema"),
   ("(?i)alembic.*\\.py$", "Alembic migration"),
   ("(?i)flyway", "Flyway migration"),
   ("(?i)knex.*migrat", "Knex migration"),
   ("(?i)sequel.*migrat", "Sequel migration"),
   ("(?i)active_record.*migrat", "ActiveRecord migration"),
   ("(?i)ecto.*migrat", "Ecto migration")]

/-- `ddlPatterns` sources. -/
def ddlPatterns : List String :=
  ["(?i)\\b(CREATE|ALTER|DROP)\\s+(TABLE|INDEX|VIEW|SCHEMA|DATABASE|TYPE|SEQUENCE)\\b",
   "(?i)\\bADD\\s+COLUMN\\b",
   "(?i)\\bDROP\\s+COLUMN\\b",
   "(?i)\\bRENAME\\s+(TABLE|COLUMN)\\b",
   "(?i)\\bMODIFY\\s+COLUMN\\b"]

/-- `checkDDL`: one `high` finding per added line containing DDL. -/
def checkDDL (eng : RegexEngine) (f : DiffFile) : List Finding :=
  scanNew (fun n l =>
    if l.op.isAdd then
      if ddlPatterns.any (fun p => eng.rmatch p l.text) then
        [⟨"schema", f.name, n, "DDL statement: " ++ strTrimSpace l.text,
          .warning, .high⟩]
      else []
    else []) f

/-- `SchemaChangePass`: flag schema/migration files (first matching
convention wins) and DDL statements on added lines. -/
def SchemaChangePass (eng : RegexEngine) (ds : DiffSet) : List Finding :=
  ds.files.flatMap (fun f =>
    (match schemaPatterns.find? (fun sp => eng.rmatch sp.1 f.name) with
     | some sp =>
       [⟨"schema", f.name, 0, "Changes to " ++ sp.2 ++ " file", .warning, .high⟩]
     | none => []) ++
    checkDDL eng f)

/-! ### Anti-pattern pass (`antipatterns.go`) -/

/-- `broadExceptPatterns` sources. -/
def broadExceptPatterns : List String :=
  ["(?i)except\\s*:",
   "(?i)except\\s+Exception\\s*:",
   "(?i)catch\\s*\\(\\s*(Exception|Error|e)\\s*\\)",
   "(?i)catch\\s*\\(\\s*err(?:or)?\\s*\\)\\s*\\\x7b",
   "(?i)catch\\s*\\\x7b",
   "(?i)rescue\\s*$",
   "(?i)rescue\\s+StandardError",
   "\\.catch\\(\\s*(?:_|err|\\(\\s*\\))\\s*=>"]

/-- `commentedCodePatterns` sources. -/
def commentedCodePatterns : List String :=
  ["^\\s*(?://|#)\\s*(?:func |def |class |if |for |while |return |import |from |const |let |var |pub fn )",
   "^\\s*(?://|#)\\s*\\w+\\s*[(\x7b=]",
   "^\\s*\x7b?/\\*.*\\b(?:func|def|class|return)\\b.*\\*/\x7d?"]

/-- `todoPattern` source. -/
def todoPatternSource : String :=
  "(?i)\\b(TODO|FIXME|HACK|XXX|TEMP|TEMPORARY)\\b"

/-- `checkBroadExceptions` (`medium` risk per matching added line). -/
def checkBroadExceptions (eng : RegexEngine) (f : DiffFile) : List Finding :=
  scanNew (fun n l =>
    if l.op.isAdd then
      if broadExceptPatterns.any (fun p => eng.rmatch p l.text) then
        [⟨"anti_patterns", f.name, n,
          "Broad exception handling: " ++ strTrimSpace l.text, .warning, .medium⟩]
      else []
    else []) f

/-- `checkCommentedCode` (`low` risk per matching added line). -/
def checkCommentedCode (eng : RegexEngine) (f : DiffFile) : List Finding :=
  scanNew (fun n l =>
    if l.op.isAdd then
      if commentedCodePatterns.any (fun p => eng.rmatch p l.text) then
        [⟨"anti_patterns", f.name, n,
          "Commented-out code: " ++ strTrimSpace l.text, .warning, .low⟩]
      else []
    else []) f

/-- `checkTodos` (`low` risk; the message carries the matched marker). -/
def checkTodos (eng : RegexEngine) (f : DiffFile) : List Finding :=
  scanNew (fun n l =>
    if l.op.isAdd then
      match eng.rfind todoPatternSource l.text with
      | some m =>
        [⟨"anti_patterns", f.name, n,
          "Agent left " ++ m ++ " marker: " ++ strTrimSpace l.text, .warning, .low⟩]
      | none => []
    else []) f

/-- Trimmed non-trivial added lines of a file with their new-file line
numbers (`checkDuplication`'s collection loop). -/
def collectAddedLines (f : DiffFile) : List (String × Nat) :=
  scanNew (fun n l =>
    if l.op.isAdd then
      let trimmed := strTrimSpace l.text
      if trimmed ≠ "" && trimmed ≠ "\x7b" && trimmed ≠ "\x7d" &&
          trimmed ≠ ")" && trimmed ≠ "(" then
        [(trimmed, n)]
      else []
    else []) f

/-- Sliding windows of 4 added lines (`windowSize = 4`): window contents
with the first line's location. -/
def windowsOf4 : List (String × Nat) → List (List String × Nat)
  | a :: b :: c :: d :: rest =>
    ([a.1, b.1, c.1, d.1], a.2) :: windowsOf4 (b :: c :: d :: rest)
  | _ => []

/-- A duplication bucket: window contents (standing in for the sha256
window hash — identical up to hash collisions) with the locations
(file, line) at which the window occurs, in first-seen order. -/
abbrev DupGroups : Type := List (List String × List (String × Nat))

/-- Add one window occurrence to the buckets (Go map append). -/
def addBlock (blocks : DupGroups) (key : List String) (loc : String × Nat) : DupGroups :=
  match blocks with
  | [] => [(key, [loc])]
  | (k, locs) :: rest =>
    if k = key then (k, locs ++ [loc]) :: rest
    else (k, locs) :: addBlock rest key loc

/-- All duplication buckets of a diff, in first-seen key order (the Go
map's iteration order over these buckets is arbitrary; theorems that
depend on it take the bucket list as a parameter). -/
def collectBlocks (ds : DiffSet) : DupGroups :=
  ds.files.foldl
    (fun blocks f =>
      (windowsOf4 (collectAddedLines f)).foldl
        (fun blocks w => addBlock blocks w.1 (f.name, w.2)) blocks)
    []

/-- `checkDuplication`'s reporting loop over the buckets: each repetition
after the first yields a `medium` finding pointing at the first
occurrence. -/
def checkDuplicationFrom (groups : DupGroups) : List Finding :=
  groups.flatMap (fun g =>
    match g.2 with
    | [] => []
    | first :: rest =>
      rest.map (fun loc =>
        ⟨"anti_patterns", loc.1, loc.2,
         "Near-duplicate code block (also at " ++ first.1 ++ ":" ++ natStr first.2 ++ ")",
         .warning, .medium⟩))

/-- `AntiPatternPass` with an explicit bucket order. -/
def antiPatternFindings (eng : RegexEngine) (ds : DiffSet) (groups : DupGroups) :
    List Finding :=
  ds.files.flatMap (fun f =>
    checkBroadExceptions eng f ++ checkCommentedCode eng f ++ checkTodos eng f) ++
  checkDuplicationFrom groups

/-- `AntiPatternPass` (buckets in first-seen order). -/
def AntiPatternPass (eng : RegexEngine) (ds : DiffSet) : List Finding :=
  antiPatternFindings eng ds (collectBlocks ds)

/-! ### Blast-radius pass (`blast.go`) -/

/-- One line of `extractChangedFunctions`: try every definition pattern
(no break), appending unseen names longer than 2 characters. -/
def extractLineFuncs (eng : RegexEngine) (acc : List String) (text : String) : List String :=
  funcDefPatternSources.foldl
    (fun acc pat =>
      match eng.rsub pat text with
      | some name =>
        if !acc.contains name && name.length > 2 then acc ++ [name] else acc
      | none => acc)
    acc

/-- `extractChangedFunctions`: function names defined on non-context
(added or deleted) lines, deduplicated in discovery order. -/
def extractChangedFunctions (eng : RegexEngine) (f : DiffFile) : List String :=
  f.fragments.foldl
    (fun acc fr =>
      fr.lines.foldl
        (fun acc l => if l.op.isContext then acc else extractLineFuncs eng acc l.text)
        acc)
    []

/-- Recognized source-file extensions (`isSourceFile`). -/
def sourceExts : List String :=
  [".go", ".py", ".js", ".ts", ".tsx", ".jsx", ".rb", ".rs",
   ".java", ".kt", ".scala", ".c", ".cpp", ".h", ".hpp",
   ".cs", ".ex", ".exs", ".erl", ".hs", ".ml", ".swift"]

/-- `filepath.Ext`: from the final dot of the final path component. -/
def extOf (p : String) : String :=
  let base := baseName p
  if base.data.contains '.' then
    String.mk ('.' :: (base.data.reverse.takeWhile (fun c => c != '.')).reverse)
  else ""

/-- `isSourceFile`. -/
def isSourceFile (p : String) : Bool := sourceExts.contains (extOf p)

/-- Directory names pruned by `countReferences`' walk (hidden, vendored
and build directories). -/
def walkSkipDir (c : String) : Bool :=
  strHasPre "." c || c == "vendor" || c == "node_modules" || c == "dist" || c == "build"

/-- A file is invisible to the walk when any directory on its path below
the repository root is pruned. -/
def pathSkipped (repoDir p : String) : Bool :=
  ((splitSlash (relPath repoDir p)).dropLast).any walkSkipDir

/-- The walk of `countReferences`: accumulate whole-word occurrence
counts over visible source files other than the file under review,
stopping early once the count exceeds 20 (`SkipAll`). -/
def countRefsAux (name : List Char) (repoDir sourceFile : String)
    (acc : Nat) : List (String × String) → Nat
  | [] => acc
  | (p, content) :: rest =>
    if pathSkipped repoDir p then countRefsAux name repoDir sourceFile acc rest
    else if !isSourceFile p then countRefsAux name repoDir sourceFile acc rest
    else if relPath repoDir p == sourceFile then countRefsAux name repoDir sourceFile acc rest
    else
      let acc' := acc + countWW name content.data
      if acc' > 20 then acc'
      else countRefsAux name repoDir sourceFile acc' rest

/-- `countReferences`. -/
def countReferences (fs : FileSys) (repoDir sourceFile funcName : String) : Nat :=
  if funcName.length < 3 then 0
  else countRefsAux funcName.data repoDir sourceFile 0 fs

/-- `BlastRadiusPass`: a no-op without a repository root; otherwise rank
each changed function by its approximate reference count. -/
def BlastRadiusPass (eng : RegexEngine) (fs : FileSys) (ds : DiffSet)
    (repoDir : String) : List Finding :=
  if repoDir == "" then []
  else
    ds.files.flatMap (fun f =>
      (extractChangedFunctions eng f).flatMap (fun fn =>
        let count := countReferences fs repoDir f.name fn
        if count > 15 then
          [⟨"blast_radius", f.name, 0,
            "Function \"" ++ fn ++ "\" has " ++ natStr count ++
              " references (high blast radius)", .warning, .high⟩]
        else if count > 5 then
          [⟨"blast_radius", f.name, 0,
            "Function \"" ++ fn ++ "\" has " ++ natStr count ++
              " references across the codebase", .warning, .medium⟩]
        else []))

/-! ### The engine (`analysis.go`) -/

/-- `PassNames`' keys, in the source's insertion order.  Go map iteration
order over them is arbitrary; `runWith` takes the order as an argument. -/
def passNamesList : List String :=
  ["deps", "security", "deleted", "schema", "anti_patterns", "blast_radius"]

/-- Look up a pass by name (`PassNames`); the anti-pattern pass receives
the duplication buckets in the supplied order. -/
def passByName (eng : RegexEngine) (fsys : FileSys) (groups : DupGroups)
    (name : String) (ds : DiffSet) (repoDir : String) : List Finding :=
  if name = "deps" then NewDependencyPass ds
  else if name = "security" then SecuritySurfacePass eng ds
  else if name = "deleted" then DeletedCodePass eng fsys ds repoDir
  else if name = "schema" then SchemaChangePass eng ds
  else if name = "anti_patterns" then antiPatternFindings eng ds groups
  else if name = "blast_radius" then BlastRadiusPass eng fsys ds repoDir
  else []

/-- `Run` with an explicit iteration order over the pass map and an
explicit bucket order inside the duplication check (both are Go map
iterations with unspecified order). -/
def runWith (eng : RegexEngine) (fsys : FileSys) (order : List String)
    (groups : DupGroups) (ds : DiffSet) (repoDir : String)
    (skip : List String) : List Finding :=
  (order.filter (fun n => !(skip.contains n))).flatMap
    (fun n => passByName eng fsys groups n ds repoDir)

/-- `analysis.Run` with the canonical (insertion) orders. -/
def Run (eng : RegexEngine) (fsys : FileSys) (ds : DiffSet)
    (repoDir : String) (skip : List String) : List Finding :=
  runWith eng fsys passNamesList (collectBlocks ds) ds repoDir skip

/-! ### CLI exit-code signal (`internal/cli/check.go`)

Both `outputText` and `outputHTML` end with the same signal computation:
`os.Exit(2)` when `MaxRisk() >= RiskHigh`, `os.Exit(1)` when
`MaxRisk() >= RiskLow`, and a normal return (exit status 0) otherwise. -/

/-- The exit-code signal computed from the analysis results. -/
def exitSignal (findings : List Finding) : Nat :=
  if RiskLevel.high.toNat ≤ (maxRiskOf findings).toNat then 2
  else if RiskLevel.low.toNat ≤ (maxRiskOf findings).toNat then 1
  else 0

/-! ## Concrete fixtures used by witnesses and counterexamples -/

/-- All-files-approved session over a parsed diff (the round-trip
scenario's `session_with_all_files_approved`). -/
def allApprovedResult (ds : DiffSet) : ReviewResult :=
  ⟨fun _ => some .approved, ds.files⟩

/-- Display names of a parse result. -/
def parsedNames (raw : List String) : Option (List String) :=
  (Parse raw).toOption.map (fun ds => ds.files.map DiffFile.name)

/-- Per-file (added, deleted) counts of a parse result. -/
def parsedCounts (raw : List String) : Option (List (Nat × Nat)) :=
  (Parse raw).toOption.map
    (fun ds => ds.files.map (fun f => (f.addedLines, f.deletedLines)))

/-- The patch regenerated from a parse with every file approved. -/
def regenLines (raw : List String) : Option (List String) :=
  (Parse raw).toOption.map (fun ds => (allApprovedResult ds).generatePatchLines)

/-- Display names after the all-approved round trip. -/
def roundtripNames (raw : List String) : Option (List String) :=
  (regenLines raw).bind parsedNames

/-- A diff with one renamed file (rename headers plus a content hunk). -/
def renameDiffLines : List String :=
  ["diff --git a/old.go b/new.go",
   "similarity index 90%",
   "rename from old.go",
   "rename to new.go",
   "--- a/old.go",
   "+++ b/new.go",
   "@@ -1,1 +1,1 @@",
   "-foo",
   "+bar"]

/-- A modified file named `ab.go`. -/
def fileAB : DiffFile :=
  ⟨"ab.go", "ab.go", false, false, false, false,
   [⟨1, 1, 1, 1, "", [⟨.context, "x"⟩]⟩]⟩

/-- A modified file named `b.go` — note its name occurs inside `ab.go`. -/
def fileB : DiffFile :=
  ⟨"b.go", "b.go", false, false, false, false,
   [⟨1, 1, 1, 1, "", [⟨.context, "y"⟩]⟩]⟩

/-- A modified file named `c.go`. -/
def fileC : DiffFile :=
  ⟨"c.go", "c.go", false, false, false, false,
   [⟨1, 1, 1, 1, "", [⟨.context, "z"⟩]⟩]⟩

/-- Two-file session: `ab.go` approved, `b.go` rejected. -/
def exC2Result : ReviewResult :=
  ⟨fun i => if i = 0 then some .approved else if i = 1 then some .rejected else none,
   [fileAB, fileB]⟩

/-- Three pending files with the first active. -/
def exTuiModel : TuiModel :=
  ⟨[fileAB, fileB, fileC], 0, 0, 0, fun _ => none⟩

/-- A loaded one-file session with no decisions. -/
def exWsSession : WsSession :=
  ⟨some ⟨[fileAB]⟩, fun _ => none⟩

/-- A loaded three-file session whose stored decisions include the
undocumented `edited` value. -/
def exC10Session : WsSession :=
  ⟨some ⟨[fileAB, fileB, fileC]⟩,
   fun i => if i = 0 then some .approved else if i = 1 then some .edited else none⟩

/-- A regex engine that matches nothing (all passes see no pattern hits). -/
def nullEngine : RegexEngine :=
  ⟨fun _ _ => false, fun _ _ => none, fun _ _ => none⟩

/-- A concrete implementation of the Go-function definition regex
`^\s*func\s+(\w+)\s*\(` (the first entry of `funcDefPatterns`): optional
leading whitespace, `func`, whitespace, a captured word, optional
whitespace, `(`.  All other patterns are treated as non-matching. -/
def goFuncCapture (line : String) : Option String :=
  let cs := line.data.dropWhile wsChar
  match dropPre? "func".data cs with
  | none => none
  | some rest =>
    let rest2 := rest.dropWhile wsChar
    if rest.length = rest2.length then none
    else
      let name := rest2.takeWhile wordChar
      if name.isEmpty then none
      else
        match (rest2.drop name.length).dropWhile wsChar with
        | '(' :: _ => some (String.mk name)
        | _ => none

/-- Engine interpreting only the Go function-definition pattern. -/
def goFuncEngine : RegexEngine :=
  ⟨fun _ _ => false, fun _ _ => none,
   fun pat line =>
     if pat = "^\\s*func\\s+(\\w+)\\s*\\(" then goFuncCapture line else none⟩

/-- A diff deleting the Go function `oldHelper` from `pkg/main.go`. -/
def exC8Ds : DiffSet :=
  ⟨[⟨"pkg/main.go", "pkg/main.go", false, false, false, false,
     [⟨1, 1, 0, 0, "", [⟨.delete, "func oldHelper() \x7b"⟩]⟩]⟩]⟩

/-- A repository whose only test file lives one directory below the
changed file's directory and references the deleted function. -/
def exC8Fs : FileSys :=
  [("repo/pkg/sub/x_test.go", "result := oldHelper(3)")]

/-- The spec-side reference witness for the deleted-code pass: some test
file in the changed file's directory (three naming conventions) or
exactly one directory below it (`*_test.*`) contains a whole-word
occurrence of the function name. -/
def testRefWitness (fs : FileSys) (repoDir filePath funcName : String) : Bool :=
  let dir := pathDir (pathJoin repoDir filePath)
  fs.any (fun e =>
    (globMatch (pathJoin dir "*_test.*") e.1 ||
     globMatch (pathJoin dir "test_*") e.1 ||
     globMatch (pathJoin dir "*_spec.*") e.1 ||
     globMatch (pathJoin (pathJoin dir "**") "*_test.*") e.1) &&
    countWW funcName.data e.2.data > 0)


/-- The `testDiff` fixture from `tui_test.go`, as lines. -/
def tuiTestDiff : List String :=
  ["diff --git a/main.go b/main.go",
   "index abc1234..def5678 100644",
   "--- a/main.go",
   "+++ b/main.go",
   "@@ -1,5 +1,6 @@",
   " package main",
   " ",
   " func main() \x7b",
   "-\tprintln(\"hello\")",
   "+\tprintln(\"hello world\")",
   "+\tprintln(\"goodbye\")",
   " \x7d",
   "diff --git a/util.go b/util.go",
   "new file mode 100644",
   "--- /dev/null",
   "+++ b/util.go",
   "@@ -0,0 +1,5 @@",
   "+package main",
   "+",
   "+func add(a, b int) int \x7b",
   "+\treturn a + b",
   "+\x7d",
   ""]

/-- Decidable equality for parser results, so concrete parses can be
checked by `decide`. -/
instance exceptDecEq {ε α : Type} [DecidableEq ε] [DecidableEq α] :
    DecidableEq (Except ε α) := fun a b =>
  match a, b with
  | .ok x, .ok y =>
    if h : x = y then .isTrue (by rw [h])
    else .isFalse (by intro hc; injection hc; contradiction)
  | .error x, .error y =>
    if h : x = y then .isTrue (by rw [h])
    else .isFalse (by intro hc; injection hc; contradiction)
  | .ok _, .error _ => .isFalse (by intro hc; injection hc)
  | .error _, .ok _ => .isFalse (by intro hc; injection hc)

/-- The hunk of `main.go` in the `tui_test.go` fixture. -/
def tuiFrag0 : TextFragment :=
  ⟨1, 5, 1, 6, "",
   [⟨.context, "package main"⟩,
    ⟨.context, ""⟩,
    ⟨.context, "func main() \x7b"⟩,
    ⟨.delete, "\tprintln(\"hello\")"⟩,
    ⟨.add, "\tprintln(\"hello world\")"⟩,
    ⟨.add, "\tprintln(\"goodbye\")"⟩,
    ⟨.context, "\x7d"⟩]⟩

/-- `main.go` of the `tui_test.go` fixture, as parsed. -/
def tuiFile0 : DiffFile :=
  ⟨"main.go", "main.go", false, false, false, false, [tuiFrag0]⟩

/-- The hunk of `util.go` in the `tui_test.go` fixture. -/
def tuiFrag1 : TextFragment :=
  ⟨0, 0, 1, 5, "",
   [⟨.add, "package main"⟩,
    ⟨.add, ""⟩,
    ⟨.add, "func add(a, b int) int \x7b"⟩,
    ⟨.add, "\treturn a + b"⟩,
    ⟨.add, "\x7d"⟩]⟩

/-- `util.go` of the `tui_test.go` fixture, as parsed. -/
def tuiFile1 : DiffFile :=
  ⟨"", "util.go", true, false, false, false, [tuiFrag1]⟩

/-- The parse of `tuiTestDiff`. -/
def tuiTestParsed : DiffSet := ⟨[tuiFile0, tuiFile1]⟩

/-- Two-file session with non-overlapping names: `c.go` approved,
`b.go` rejected. -/
def exC2Good : ReviewResult :=
  ⟨fun i => if i = 0 then some .approved else if i = 1 then some .rejected else none,
   [fileC, fileB]⟩

/-- Old-side name emitted by `formatFilePatch` (`/dev/null` for empty). -/
def oldNameOut (f : DiffFile) : String :=
  if f.oldName = "" then "/dev/null" else f.oldName

/-- New-side name emitted by `formatFilePatch` (`/dev/null` for empty). -/
def newNameOut (f : DiffFile) : String :=
  if f.newName = "" then "/dev/null" else f.newName

/-- The `diff --git` line emitted by `formatFilePatch`. -/
def gitLineOf (f : DiffFile) : String :=
  "diff --git a/" ++ f.name ++ " b/" ++ f.name

/-- The mode lines emitted by `formatFilePatch`. -/
def modeLinesOf (f : DiffFile) : List String :=
  if f.isNew then ["new file mode 100644"]
  else if f.isDeleted then ["deleted file mode 100644"]
  else []

/-- The lines of one file's patch after its `diff --git` line. -/
def fmtTail (f : DiffFile) : List String :=
  modeLinesOf f ++ ["--- a/" ++ oldNameOut f, "+++ b/" ++ newNameOut f] ++
    f.fragments.flatMap fragOut

/-- The file produced by re-parsing `formatFilePatch`'s output: names are
piped through the `/dev/null` placeholder, and the rename/binary flags
(for which no headers are emitted) are lost. -/
def roundFile (f : DiffFile) : DiffFile :=
  { f with oldName := oldNameOut f, newName := newNameOut f,
           isRenamed := false, isBinary := false }

/-- The header state accumulated by the parser over `fmtTail`'s header
lines. -/
def hdrFinal (f : DiffFile) : FileHeaderState :=
  ⟨oldNameOut f, newNameOut f, f.isNew, f.isDeleted, false, false⟩

/-- The spec §3 numbering contract for a completed fragment. -/
def FragOk (fr : TextFragment) : Prop :=
  countOldSteps fr.lines = fr.oldLines ∧ countNewSteps fr.lines = fr.newLines

/-- Numbering contract for a fragment still being accumulated. -/
def PFragOk (fr : PFrag) : Prop :=
  countOldSteps fr.lines + fr.oldR = fr.oldLines ∧
    countNewSteps fr.lines + fr.newR = fr.newLines

/-- Well-formedness the parser guarantees for every file it emits:
consistent flags/names (from `mkDiffFile`) and the numbering contract for
every fragment. -/
def FileOk (f : DiffFile) : Prop :=
  (f.isNew = true → f.isDeleted = false) ∧
  (f.isNew = true → f.newName ≠ "") ∧
  (f.isDeleted = true → f.oldName ≠ "") ∧
  (f.oldName = "" → f.isNew = true) ∧
  (f.newName = "" → f.isDeleted = true) ∧
  (∀ fr ∈ f.fragments, FragOk fr)

/-- Parser-state invariant. -/
def GoodState : ParseState → Prop
  | .top files => ∀ f ∈ files, FileOk f
  | .inFile files _ frags => (∀ f ∈ files, FileOk f) ∧ (∀ fr ∈ frags, FragOk fr)
  | .inBody files _ frags fr =>
    (∀ f ∈ files, FileOk f) ∧ (∀ fr' ∈ frags, FragOk fr') ∧ PFragOk fr

/-- The summary file list of a finish response. -/
def summaryFileAt (o : WsOut) (i : Nat) : Option (String × String) :=
  match o with
  | .summaryMsg _ _ _ files => files.get? i
  | _ => none

/-- The counters of a finish response. -/
def summaryCounts (o : WsOut) : Option (Nat × Nat × Nat) :=
  match o with
  | .summaryMsg a r p _ => some (a, r, p)
  | _ => none

/-! # Theorems -/

theorem countOldSteps_append (a b : List DiffLine) :
    countOldSteps (a ++ b) = countOldSteps a + countOldSteps b := by
  simp [countOldSteps, List.filter_append]

theorem countNewSteps_append (a b : List DiffLine) :
    countNewSteps (a ++ b) = countNewSteps a + countNewSteps b := by
  simp [countNewSteps, List.filter_append]

theorem countOldSteps_snoc (xs : List DiffLine) (op : LineOp) (t : String) :
    countOldSteps (xs ++ [⟨op, t⟩]) =
      countOldSteps xs + (if op.isContext || op.isDelete then 1 else 0) := by
  simp only [countOldSteps, List.filter_append, List.length_append]
  cases op <;> simp [LineOp.isContext, LineOp.isDelete]

theorem countNewSteps_snoc (xs : List DiffLine) (op : LineOp) (t : String) :
    countNewSteps (xs ++ [⟨op, t⟩]) =
      countNewSteps xs + (if op.isContext || op.isAdd then 1 else 0) := by
  simp only [countNewSteps, List.filter_append, List.length_append]
  cases op <;> simp [LineOp.isContext, LineOp.isAdd]

theorem mkDiffFile_ok {st : FileHeaderState} {frags : List TextFragment}
    {f : DiffFile} (h : mkDiffFile st frags = .ok f) :
    f.oldName = st.oldName ∧ f.newName = st.newName ∧ f.isNew = st.isNew ∧
    f.isDeleted = st.isDeleted ∧ f.isRenamed = st.isRenamed ∧
    f.isBinary = st.isBinary ∧ f.fragments = frags ∧
    (st.isNew = true → st.isDeleted = false) ∧
    (st.isNew = true → st.newName ≠ "") ∧
    (st.isDeleted = true → st.oldName ≠ "") ∧
    (st.oldName = "" → st.isNew = true) ∧
    (st.newName = "" → st.isDeleted = true) := by
  unfold mkDiffFile at h
  split at h
  · exact absurd h (by simp)
  · split at h
    · exact absurd h (by simp)
    · split at h
      · exact absurd h (by simp)
      · split at h
        · exact absurd h (by simp)
        · split at h
          · exact absurd h (by simp)
          · rename_i h1 h2 h3 h4 h5
            injection h with h
            subst h
            refine ⟨rfl, rfl, rfl, rfl, rfl, rfl, rfl, ?_, ?_, ?_, ?_, ?_⟩
            · intro hn
              cases hd : st.isDeleted
              · rfl
              · exact absurd (by simp [hn, hd]) h1
            · intro hn hne
              exact h2 (by simp [hn, hne])
            · intro hd hoe
              exact h3 (by simp [hd, hoe])
            · intro hoe
              cases hn : st.isNew
              · exact absurd (by simp [hoe, hn]) h4
              · rfl
            · intro hne
              cases hd : st.isDeleted
              · exact absurd (by simp [hne, hd]) h5
              · rfl

theorem completeOr_good {files : List DiffFile} {hdr : FileHeaderState}
    {frags : List TextFragment} {fr : PFrag}
    (hf : ∀ f ∈ files, FileOk f) (hfr : ∀ fr' ∈ frags, FragOk fr')
    (hp : PFragOk fr) : GoodState (completeOr files hdr frags fr) := by
  obtain ⟨h1, h2⟩ := hp
  unfold completeOr
  split
  · rename_i hz
    simp only [Bool.and_eq_true, beq_iff_eq] at hz
    refine ⟨hf, ?_⟩
    intro fr' hmem
    rcases List.mem_append.mp hmem with hmem | hmem
    · exact hfr fr' hmem
    · simp only [List.mem_singleton] at hmem
      subst hmem
      constructor
      · show countOldSteps fr.lines = fr.oldLines
        omega
      · show countNewSteps fr.lines = fr.newLines
        omega
  · exact ⟨hf, hfr, h1, h2⟩

theorem stepBody_good {files : List DiffFile} {hdr : FileHeaderState}
    {frags : List TextFragment} {fr : PFrag} {l : String} {s' : ParseState}
    (h : stepBody files hdr frags fr l = .ok s')
    (hf : ∀ f ∈ files, FileOk f) (hfr : ∀ fr' ∈ frags, FragOk fr')
    (hp : PFragOk fr) : GoodState s' := by
  unfold stepBody at h
  obtain ⟨h1, h2⟩ := hp
  split at h
  · injection h with h
    subst h
    exact ⟨hf, hfr, h1, h2⟩
  · split at h
    · exact absurd h (by simp)
    · rename_i hnz
      injection h with h
      subst h
      simp only [Bool.or_eq_true, beq_iff_eq, not_or] at hnz
      refine completeOr_good hf hfr ⟨?_, ?_⟩
      · rw [countOldSteps_snoc]
        simp only [LineOp.isContext, LineOp.isDelete, Bool.true_or, if_true]
        omega
      · rw [countNewSteps_snoc]
        simp only [LineOp.isContext, LineOp.isAdd, Bool.true_or, if_true]
        omega
  · split at h
    · exact absurd h (by simp)
    · rename_i hnz
      injection h with h
      subst h
      simp only [beq_iff_eq] at hnz
      refine completeOr_good hf hfr ⟨?_, ?_⟩
      · rw [countOldSteps_snoc]
        simp only [LineOp.isContext, LineOp.isDelete, Bool.false_or, if_true]
        omega
      · rw [countNewSteps_snoc]
        simp [LineOp.isContext, LineOp.isAdd]
        omega
  · split at h
    · exact absurd h (by simp)
    · rename_i hnz
      injection h with h
      subst h
      simp only [beq_iff_eq] at hnz
      refine completeOr_good hf hfr ⟨?_, ?_⟩
      · rw [countOldSteps_snoc]
        simp [LineOp.isContext, LineOp.isDelete]
        omega
      · rw [countNewSteps_snoc]
        simp only [LineOp.isContext, LineOp.isAdd, Bool.false_or, if_true]
        omega
  · exact absurd h (by simp)

theorem mkDiffFile_fileOk {st : FileHeaderState} {frags : List TextFragment}
    {f : DiffFile} (h : mkDiffFile st frags = .ok f)
    (hfr : ∀ fr ∈ frags, FragOk fr) : FileOk f := by
  obtain ⟨e1, e2, e3, e4, _, _, e7, c1, c2, c3, c4, c5⟩ := mkDiffFile_ok h
  refine ⟨?_, ?_, ?_, ?_, ?_, ?_⟩
  · rw [e3, e4]; exact c1
  · rw [e3, e2]; exact c2
  · rw [e4, e1]; exact c3
  · rw [e1, e3]; exact c4
  · rw [e2, e4]; exact c5
  · rw [e7]; exact hfr

theorem stepFile_good {files : List DiffFile} {hdr : FileHeaderState}
    {frags : List TextFragment} {l : String} {s' : ParseState}
    (h : stepFile files hdr frags l = .ok s')
    (hf : ∀ f ∈ files, FileOk f) (hfr : ∀ fr ∈ frags, FragOk fr) :
    GoodState s' := by
  have memOk : ∀ (g : DiffFile), mkDiffFile hdr frags = .ok g →
      ∀ f ∈ files ++ [g], FileOk f := by
    intro g hg f hmem
    rcases List.mem_append.mp hmem with hmem | hmem
    · exact hf f hmem
    · simp only [List.mem_singleton] at hmem
      subst hmem
      exact mkDiffFile_fileOk hg hfr
  unfold stepFile at h
  split at h
  · -- fileStart
    split at h
    · exact absurd h (by simp)
    · rename_i g hg
      injection h with h
      subst h
      exact ⟨memOk g hg, by simp⟩
  · -- hunk
    split at h
    · exact absurd h (by simp)
    · rename_i o ol n nl cm _
      injection h with h
      subst h
      refine completeOr_good hf hfr ⟨?_, ?_⟩ <;> simp [countOldSteps, countNewSteps]
  · -- oldNameLine
    split at h
    · split at h
      · exact absurd h (by simp)
      · injection h with h
        subst h
        exact ⟨hf, hfr⟩
    · split at h
      · exact absurd h (by simp)
      · rename_i g hg
        injection h with h
        subst h
        exact memOk g hg
  · -- newNameLine
    split at h
    · split at h
      · exact absurd h (by simp)
      · injection h with h
        subst h
        exact ⟨hf, hfr⟩
    · split at h
      · exact absurd h (by simp)
      · rename_i g hg
        injection h with h
        subst h
        exact memOk g hg
  · -- newFileMode
    split at h
    · injection h with h
      subst h
      exact ⟨hf, hfr⟩
    · split at h
      · exact absurd h (by simp)
      · rename_i g hg
        injection h with h
        subst h
        exact memOk g hg
  · -- deletedFileMode
    split at h
    · injection h with h
      subst h
      exact ⟨hf, hfr⟩
    · split at h
      · exact absurd h (by simp)
      · rename_i g hg
        injection h with h
        subst h
        exact memOk g hg
  · -- renameFrom
    split at h
    · injection h with h
      subst h
      exact ⟨hf, hfr⟩
    · split at h
      · exact absurd h (by simp)
      · rename_i g hg
        injection h with h
        subst h
        exact memOk g hg
  · -- renameTo
    split at h
    · injection h with h
      subst h
      exact ⟨hf, hfr⟩
    · split at h
      · exact absurd h (by simp)
      · rename_i g hg
        injection h with h
        subst h
        exact memOk g hg
  · -- binaryMark
    split at h
    · injection h with h
      subst h
      exact ⟨hf, hfr⟩
    · split at h
      · exact absurd h (by simp)
      · rename_i g hg
        injection h with h
        subst h
        exact memOk g hg
  · -- skipLine
    split at h
    · injection h with h
      subst h
      exact ⟨hf, hfr⟩
    · split at h
      · exact absurd h (by simp)
      · rename_i g hg
        injection h with h
        subst h
        exact memOk g hg
  · -- other
    split at h
    · exact absurd h (by simp)
    · rename_i g hg
      injection h with h
      subst h
      exact memOk g hg

theorem stepLine_good {s : ParseState} {l : String} {s' : ParseState}
    (h : stepLine s l = .ok s') (hs : GoodState s) : GoodState s' := by
  cases s with
  | top files =>
    simp only [stepLine] at h
    split at h
    · injection h with h
      subst h
      exact ⟨hs, by simp⟩
    · injection h with h
      subst h
      exact hs
  | inFile files hdr frags =>
    exact stepFile_good (by simpa only [stepLine] using h) hs.1 hs.2
  | inBody files hdr frags fr =>
    exact stepBody_good (by simpa only [stepLine] using h) hs.1 hs.2.1 hs.2.2

theorem except_error_bind {ε α β : Type} (e : ε) (f : α → Except ε β) :
    (Except.error e >>= f) = Except.error e := rfl

theorem except_ok_bind {ε α β : Type} (a : α) (f : α → Except ε β) :
    (Except.ok a >>= f) = f a := rfl

theorem foldl_good : ∀ (ls : List String) (s s' : ParseState),
    List.foldlM stepLine s ls = .ok s' → GoodState s → GoodState s' := by
  intro ls
  induction ls with
  | nil =>
    intro s s' h hs
    simp only [List.foldlM_nil] at h
    injection h with h
    subst h
    exact hs
  | cons l rest ih =>
    intro s s' h hs
    rw [List.foldlM_cons] at h
    cases hstep : stepLine s l with
    | error e =>
      rw [hstep, except_error_bind] at h
      exact absurd h (by simp)
    | ok s1 =>
      rw [hstep, except_ok_bind] at h
      exact ih s1 s' h (stepLine_good hstep hs)

theorem parseFiles_wf {ls : List String} {files : List DiffFile}
    (h : parseFiles ls = .ok files) : ∀ f ∈ files, FileOk f := by
  unfold parseFiles at h
  cases hfold : List.foldlM stepLine (ParseState.top []) ls with
  | error e =>
    rw [hfold, except_error_bind] at h
    exact absurd h (by simp)
  | ok s =>
    rw [hfold, except_ok_bind] at h
    have hgood : GoodState s := foldl_good ls _ s hfold (by simp [GoodState])
    cases s with
    | top fs =>
      simp only [finishParse] at h
      injection h with h
      subst h
      exact hgood
    | inFile fs hdr frags =>
      simp only [finishParse] at h
      split at h
      · exact absurd h (by simp)
      · rename_i g hg
        injection h with h
        subst h
        intro f hmem
        rcases List.mem_append.mp hmem with hmem | hmem
        · exact hgood.1 f hmem
        · simp only [List.mem_singleton] at hmem
          subst hmem
          exact mkDiffFile_fileOk hg hgood.2
    | inBody fs hdr frags fr =>
      simp only [finishParse] at h
      exact absurd h (by simp)

theorem Parse_wf {raw : List String} {ds : DiffSet} (h : Parse raw = .ok ds) :
    ∀ f ∈ ds.files, FileOk f := by
  unfold Parse at h
  cases hp : parseFiles raw with
  | error e => rw [hp] at h; exact absurd h (by simp [Except.map])
  | ok fs =>
    rw [hp] at h
    simp only [Except.map] at h
    injection h with h
    subst h
    exact parseFiles_wf hp

/-- C3: for every fragment of every file produced by `Parse`, the number
of lines whose operation is context or delete equals the fragment's
`oldLines` count, and the number whose operation is context or add equals
its `newLines` count. -/
theorem C3_line_numbering_invariant (raw : List String) (ds : DiffSet)
    (h : Parse raw = .ok ds) :
    ∀ f ∈ ds.files, ∀ fr ∈ f.fragments,
      countOldSteps fr.lines = fr.oldLines ∧
      countNewSteps fr.lines = fr.newLines :=
  fun f hf fr hfr => (Parse_wf h f hf).2.2.2.2.2 fr hfr

theorem C3_line_numbering_invariant_witness :
    Parse tuiTestDiff = .ok tuiTestParsed ∧
    (countOldSteps tuiFrag0.lines = tuiFrag0.oldLines ∧
     countNewSteps tuiFrag0.lines = tuiFrag0.newLines) ∧
    (countOldSteps tuiFrag1.lines = tuiFrag1.oldLines ∧
     countNewSteps tuiFrag1.lines = tuiFrag1.newLines) :=
  ⟨by decide,
   C3_line_numbering_invariant tuiTestDiff tuiTestParsed (by decide)
     tuiFile0 (by decide) tuiFrag0 (by decide),
   C3_line_numbering_invariant tuiTestDiff tuiTestParsed (by decide)
     tuiFile1 (by decide) tuiFrag1 (by decide)⟩

theorem scanRange_some (dec : Nat → Option ReviewDecision) :
    ∀ (k a j : Nat),
      scanFirstUndecided dec (List.range' a k) = some j ↔
        (a ≤ j ∧ j < a + k ∧ dec j = none ∧
         ∀ t, a ≤ t → t < j → dec t ≠ none) := by
  intro k
  induction k with
  | zero =>
    intro a j
    simp only [List.range', scanFirstUndecided]
    constructor
    · intro h; exact absurd h (by simp)
    · intro ⟨h1, h2, _⟩; omega
  | succ n ih =>
    intro a j
    rw [List.range'_succ]
    simp only [scanFirstUndecided]
    split
    · rename_i hda
      constructor
      · intro h
        injection h with h
        subst h
        exact ⟨Nat.le_refl _, by omega, hda, fun t h1 h2 => absurd h2 (by omega)⟩
      · intro ⟨h1, h2, h3, h4⟩
        rcases Nat.eq_or_lt_of_le h1 with he | hlt
        · rw [he]
        · exact absurd hda (h4 a (Nat.le_refl _) hlt)
    · rename_i hda
      rw [ih (a + 1) j]
      constructor
      · intro ⟨h1, h2, h3, h4⟩
        refine ⟨by omega, by omega, h3, ?_⟩
        intro t ht1 ht2
        rcases Nat.eq_or_lt_of_le ht1 with he | hlt
        · rw [← he]; exact hda
        · exact h4 t hlt ht2
      · intro ⟨h1, h2, h3, h4⟩
        have hja : j ≠ a := by
          intro he
          exact hda (he ▸ h3)
        refine ⟨by omega, by omega, h3, ?_⟩
        intro t ht1 ht2
        exact h4 t (by omega) ht2

theorem scanRange_none (dec : Nat → Option ReviewDecision) :
    ∀ (k a : Nat),
      scanFirstUndecided dec (List.range' a k) = none ↔
        ∀ t, a ≤ t → t < a + k → dec t ≠ none := by
  intro k
  induction k with
  | zero =>
    intro a
    constructor
    · intro _ t h1 h2
      exact absurd h2 (by omega)
    · intro _
      simp [List.range', scanFirstUndecided]
  | succ n ih =>
    intro a
    rw [List.range'_succ]
    simp only [scanFirstUndecided]
    split
    · rename_i hda
      constructor
      · intro h; exact absurd h (by simp)
      · intro h; exact absurd hda (h a (Nat.le_refl _) (by omega))
    · rename_i hda
      rw [ih (a + 1)]
      constructor
      · intro h t h1 h2
        rcases Nat.eq_or_lt_of_le h1 with he | hlt
        · rw [← he]; exact hda
        · exact h t hlt (by omega)
      · intro h t h1 h2
        exact h t (by omega) (by omega)

/-- C4: after `Approve`/`Reject` on the active file, the active index
moves to the smallest undecided index greater than it (or stays put when
every later index is decided); `Undo` removes the active file's decision
and never moves the active index. -/
theorem C4_auto_advance_and_undo (m : TuiModel) (h : 0 < m.files.length) :
    (∀ j, (m.fileIndex < j ∧ j < m.files.length ∧ m.decisions j = none ∧
            ∀ k, m.fileIndex < k → k < j → m.decisions k ≠ none) →
       (approveKey m).fileIndex = j ∧ (rejectKey m).fileIndex = j) ∧
    ((∀ j, m.fileIndex < j → j < m.files.length → m.decisions j ≠ none) →
       (approveKey m).fileIndex = m.fileIndex ∧
       (rejectKey m).fileIndex = m.fileIndex) ∧
    ((undoKey m).decisions m.fileIndex = none ∧
     (undoKey m).fileIndex = m.fileIndex ∧
     ∀ k, k ≠ m.fileIndex → (undoKey m).decisions k = m.decisions k) := by
  have hset : ∀ (d : ReviewDecision) (k : Nat), m.fileIndex < k →
      setDecision m.decisions m.fileIndex d k = m.decisions k := by
    intro d k hk
    unfold setDecision
    rw [if_neg (by omega)]
  have hadv : ∀ (d : ReviewDecision) (md : TuiModel),
      md = { m with decisions := setDecision m.decisions m.fileIndex d } →
      (∀ j, (m.fileIndex < j ∧ j < m.files.length ∧ m.decisions j = none ∧
              ∀ k, m.fileIndex < k → k < j → m.decisions k ≠ none) →
          (advanceAfterDecision md).fileIndex = j) ∧
      ((∀ j, m.fileIndex < j → j < m.files.length → m.decisions j ≠ none) →
          (advanceAfterDecision md).fileIndex = m.fileIndex) := by
    intro d md hmd
    subst hmd
    constructor
    · intro j ⟨h1, h2, h3, h4⟩
      unfold advanceAfterDecision
      have hscan : scanFirstUndecided (setDecision m.decisions m.fileIndex d)
          (List.range' (m.fileIndex + 1)
            (m.files.length - (m.fileIndex + 1))) = some j := by
        rw [scanRange_some]
        refine ⟨by omega, by omega, ?_, ?_⟩
        · rw [hset d j h1]; exact h3
        · intro t ht1 ht2
          rw [hset d t (by omega)]
          exact h4 t (by omega) ht2
      rw [hscan]
    · intro hall
      unfold advanceAfterDecision
      have hscan : scanFirstUndecided (setDecision m.decisions m.fileIndex d)
          (List.range' (m.fileIndex + 1)
            (m.files.length - (m.fileIndex + 1))) = none := by
        rw [scanRange_none]
        intro t ht1 ht2
        rw [hset d t (by omega)]
        exact hall t (by omega) (by omega)
      rw [hscan]
  refine ⟨?_, ?_, ?_, ?_, ?_⟩
  · intro j hj
    constructor
    · unfold approveKey
      rw [if_pos h]
      exact (hadv .approved _ rfl).1 j hj
    · unfold rejectKey
      rw [if_pos h]
      exact (hadv .rejected _ rfl).1 j hj
  · intro hall
    constructor
    · unfold approveKey
      rw [if_pos h]
      exact (hadv .approved _ rfl).2 hall
    · unfold rejectKey
      rw [if_pos h]
      exact (hadv .rejected _ rfl).2 hall
  · unfold undoKey
    rw [if_pos h]
    simp [delDecision]
  · unfold undoKey
    rw [if_pos h]
  · intro k hk
    unfold undoKey
    rw [if_pos h]
    simp only [delDecision]
    rw [if_neg hk]

theorem C4_auto_advance_and_undo_witness :
    0 < exTuiModel.files.length ∧
    (approveKey exTuiModel).fileIndex = 1 ∧
    (rejectKey exTuiModel).fileIndex = 1 ∧
    (undoKey exTuiModel).decisions exTuiModel.fileIndex = none ∧
    (undoKey exTuiModel).fileIndex = exTuiModel.fileIndex := by
  have h := C4_auto_advance_and_undo exTuiModel (by decide)
  have h1 := (h.1 1 ⟨by decide, by decide, by decide,
    fun k hk1 hk2 => absurd hk2 (by omega)⟩)
  exact ⟨by decide, h1.1, h1.2, h.2.2.1, h.2.2.2.1⟩

theorem countFold (dec : Nat → Option ReviewDecision) (l : List Nat) :
    ∀ acc : Nat × Nat × Nat,
      l.foldl (fun acc i => countStep acc (decisionAt dec i)) acc =
        (acc.1 + (l.filter (fun i => decide (decisionAt dec i = .approved))).length,
         acc.2.1 + (l.filter (fun i => decide (decisionAt dec i = .rejected))).length,
         acc.2.2 + (l.filter (fun i =>
             decide (decisionAt dec i ≠ .approved ∧
                     decisionAt dec i ≠ .rejected))).length) := by
  induction l with
  | nil => intro acc; simp
  | cons i rest ih =>
    intro acc
    rw [List.foldl_cons, ih]
    cases hd : decisionAt dec i <;>
      simp [countStep, hd, List.filter_cons] <;> omega

theorem files_invariant (m : TuiModel) (op : TuiOp) :
    (applyTuiOp m op).files = m.files := by
  cases op with
  | approve =>
    show (approveKey m).files = m.files
    unfold approveKey advanceAfterDecision
    split
    · split <;> rfl
    · rfl
  | reject =>
    show (rejectKey m).files = m.files
    unfold rejectKey advanceAfterDecision
    split
    · split <;> rfl
    · rfl
  | undo =>
    show (undoKey m).files = m.files
    unfold undoKey
    split <;> rfl

theorem files_invariant_ops (ops : List TuiOp) :
    ∀ m : TuiModel, (applyTuiOps m ops).files = m.files := by
  induction ops with
  | nil => intro m; rfl
  | cons op rest ih =>
    intro m
    show (applyTuiOps (applyTuiOp m op) rest).files = m.files
    rw [ih, files_invariant]

/-- C5: after any finite sequence of approve/reject/undo events, the
decision counts satisfy `approved + rejected + pending = total files`. -/
theorem C5_decision_exhaustiveness (m0 : TuiModel) (ops : List TuiOp) :
    (decisionCounts (applyTuiOps m0 ops)).1 +
      (decisionCounts (applyTuiOps m0 ops)).2.1 +
      (decisionCounts (applyTuiOps m0 ops)).2.2 =
      m0.files.length := by
  set m := applyTuiOps m0 ops with hm
  have hf : m.files.length = m0.files.length := by rw [hm, files_invariant_ops]
  rw [← hf]
  unfold decisionCounts
  rw [countFold]
  simp only [Nat.zero_add]
  have hpart : ∀ l : List Nat,
      (l.filter (fun i => decide (decisionAt m.decisions i = .approved))).length +
      (l.filter (fun i => decide (decisionAt m.decisions i = .rejected))).length +
      (l.filter (fun i =>
          decide (decisionAt m.decisions i ≠ .approved ∧
                  decisionAt m.decisions i ≠ .rejected))).length = l.length := by
    intro l
    induction l with
    | nil => rfl
    | cons i rest ih =>
      cases hd : decisionAt m.decisions i <;>
        simp [List.filter_cons, hd] at ih ⊢ <;> omega
  rw [hpart]
  simp

/-- C10: decision counting and the finish summary classify every stored
value other than `approved`/`rejected` as pending — an absent entry, an
explicit `pending`, and the fourth `edited` value alike — so every file
is counted in exactly one bucket. -/
theorem C10_pending_classification (m : TuiModel) (s : WsSession) (ds : DiffSet)
    (h : s.ds = some ds) :
    (decisionCounts m =
      (((List.range m.files.length).filter
          (fun i => decide (decisionAt m.decisions i = .approved))).length,
       ((List.range m.files.length).filter
          (fun i => decide (decisionAt m.decisions i = .rejected))).length,
       ((List.range m.files.length).filter
          (fun i => decide (decisionAt m.decisions i ≠ .approved ∧
                            decisionAt m.decisions i ≠ .rejected))).length)) ∧
    (∀ d : ReviewDecision, d ≠ .approved → d ≠ .rejected →
        wsDecisionString d = "pending") ∧
    (∀ (i : Nat) (f : DiffFile), ds.files.get? i = some f →
        summaryFileAt (handleWSFinish s) i =
          some (f.name, wsDecisionString (wsDecisionAt s.decisions i))) ∧
    ((summaryCounts (handleWSFinish s)).map (fun c => c.1 + c.2.1 + c.2.2) =
        some ds.files.length) := by
  refine ⟨?_, ?_, ?_, ?_⟩
  · unfold decisionCounts
    rw [countFold]
    simp
  · intro d h1 h2
    cases d
    · rfl
    · exact absurd rfl h1
    · exact absurd rfl h2
    · rfl
  · intro i f hf
    unfold handleWSFinish
    rw [h]
    simp only [summaryFileAt]
    rw [List.get?_map]
    rw [List.get?_enum]
    rw [hf]
    rfl
  · unfold handleWSFinish
    rw [h]
    simp only [summaryCounts, Option.map]
    congr 1
    have hsum : ∀ l : List (String × String),
        (∀ e ∈ l, e.2 = "approved" ∨ e.2 = "rejected" ∨ e.2 = "pending") →
        (l.filter (fun e => decide (e.2 = "approved"))).length +
        (l.filter (fun e => decide (e.2 = "rejected"))).length +
        (l.filter (fun e => decide (e.2 = "pending"))).length = l.length := by
      intro l
      induction l with
      | nil => intro _; rfl
      | cons e rest ih =>
        intro hall
        have hr := ih (fun x hx => hall x (by simp [hx]))
        rcases hall e (by simp) with he | he | he <;>
          simp [List.filter_cons, he] <;> omega
    rw [hsum]
    · simp
    · intro e he
      simp only [List.mem_map] at he
      obtain ⟨p, _, hpe⟩ := he
      rw [← hpe]
      cases wsDecisionAt s.decisions p.1 <;> simp [wsDecisionString]

theorem C10_pending_classification_witness :
    exC10Session.ds = some (DiffSet.mk [fileAB, fileB, fileC]) ∧
    exC10Session.decisions 1 = some .edited ∧
    summaryFileAt (handleWSFinish exC10Session) 1 = some ("b.go", "pending") ∧
    (summaryCounts (handleWSFinish exC10Session)).map
        (fun c => c.1 + c.2.1 + c.2.2) = some 3 := by
  have h := C10_pending_classification exTuiModel exC10Session
    (DiffSet.mk [fileAB, fileB, fileC]) rfl
  refine ⟨rfl, by decide, ?_, ?_⟩
  · have h2 := h.2.2.1 1 fileB (by decide)
    rw [h2]
    decide
  · have h3 := h.2.2.2
    rw [h3]
    decide

/-- C6 counterexample: in a loaded one-file session, `undo` at the
out-of-range index 5 is not rejected with an out-of-range error — it is
silently accepted with a `pending` decision confirmation (compare the
`approve` handler, which does signal the error at the same index). -/
theorem C6_counterexample :
    exWsSession.ds = some (DiffSet.mk [fileAB]) ∧
    (5 : Int) ≥ ((DiffSet.mk [fileAB]).files.length : Int) ∧
    (handleWSUndo exWsSession 5).2 = WsOut.decisionMsg 5 "pending" ∧
    (handleWSUndo exWsSession 5).2 ≠ WsOut.errorMsg "file_index out of range" ∧
    (handleWSDecision exWsSession 5 .approved).2 =
      WsOut.errorMsg "file_index out of range" := by
  refine ⟨rfl, by decide, by decide, by decide, by decide⟩

/-- C6 as amended: `approve` and `reject` reject an out-of-range file
index with the explicit `file_index out of range` error and leave the
decision mapping unchanged; `undo` performs its deletion without any
range check and replies with a `pending` confirmation — which leaves the
mapping unchanged whenever it holds no entry at that index. -/
theorem C6_amended (s : WsSession) (ds : DiffSet) (idx : Int) (d : ReviewDecision)
    (h : s.ds = some ds) (hout : idx < 0 ∨ (ds.files.length : Int) ≤ idx) :
    ((handleWSDecision s idx d).1.decisions = s.decisions ∧
     (handleWSDecision s idx d).2 = WsOut.errorMsg "file_index out of range") ∧
    ((handleWSUndo s idx).2 = WsOut.decisionMsg idx "pending" ∧
     (s.decisions idx = none →
        ∀ k, (handleWSUndo s idx).1.decisions k = s.decisions k)) := by
  obtain ⟨sds, sdec⟩ := s
  have h' : sds = some ds := h
  subst h'
  constructor
  · simp only [handleWSDecision]
    split
    · exact ⟨rfl, rfl⟩
    · rename_i hc
      exfalso
      simp only [Bool.or_eq_true, decide_eq_true_eq, not_or] at hc
      rcases hout with h1 | h1
      · exact hc.1 h1
      · exact hc.2 (by omega)
  · constructor
    · simp only [handleWSUndo]
    · intro hnone k
      simp only [handleWSUndo, wsDelDecision]
      by_cases hk : k = idx
      · rw [if_pos hk, hk]
        exact hnone.symm
      · rw [if_neg hk]

theorem C6_amended_witness :
    (exWsSession.ds = some (DiffSet.mk [fileAB]) ∧
     ((5 : Int) < 0 ∨ ((DiffSet.mk [fileAB]).files.length : Int) ≤ 5)) ∧
    ((handleWSDecision exWsSession 5 .rejected).1.decisions = exWsSession.decisions ∧
     (handleWSDecision exWsSession 5 .rejected).2 =
       WsOut.errorMsg "file_index out of range") ∧
    ((handleWSUndo exWsSession 5).2 = WsOut.decisionMsg 5 "pending" ∧
     (exWsSession.decisions 5 = none →
        ∀ k, (handleWSUndo exWsSession 5).1.decisions k = exWsSession.decisions k)) :=
  ⟨⟨rfl, by decide⟩,
   (C6_amended exWsSession (DiffSet.mk [fileAB]) 5 .rejected rfl (by decide)).1,
   (C6_amended exWsSession (DiffSet.mk [fileAB]) 5 .rejected rfl (by decide)).2⟩

theorem leadsWith_self_append : ∀ (x r : List Char), leadsWith x (x ++ r) = true := by
  intro x
  induction x with
  | nil => intro r; rfl
  | cons c t ih => intro r; simp [leadsWith, ih]

theorem hasSub_of_appears : ∀ (pre x suf : List Char),
    hasSub x (pre ++ (x ++ suf)) = true := by
  intro pre
  induction pre with
  | nil =>
    intro x suf
    cases hx : x ++ suf with
    | nil =>
      have : x = [] := by
        cases x with
        | nil => rfl
        | cons a b => simp at hx
      subst this
      simp [hasSub, leadsWith]
    | cons c t =>
      simp only [List.nil_append, hx, hasSub]
      rw [← hx, leadsWith_self_append]
      simp
  | cons c t ih =>
    intro x suf
    simp [hasSub, ih x suf]

theorem strHas_middle (pre mid suf : String) :
    strHas (pre ++ mid ++ suf) mid = true := by
  unfold strHas
  rw [String.data_append, String.data_append, List.append_assoc]
  exact hasSub_of_appears pre.data mid.data suf.data

theorem approvedFilesAux_eq (dec : Nat → Option ReviewDecision) :
    ∀ (files : List DiffFile) (i : Nat),
      approvedFilesAux dec files i =
        ((files.enumFrom i).filter
            (fun p => decide (decisionAt dec p.1 = .approved))).map Prod.snd := by
  intro files
  induction files with
  | nil => intro i; rfl
  | cons f rest ih =>
    intro i
    simp only [approvedFilesAux, List.enumFrom, List.filter_cons]
    by_cases hd : decisionAt dec i = .approved
    · simp [hd, ih]
    · simp [hd, ih]

/-- C2 as amended: `GeneratePatch` emits exactly the approved files'
patches, in original file order; it is empty when no file is approved;
and in the one-approved/one-rejected scenario the output contains the
approved file's name, and contains no occurrence of the rejected file's
name provided that name does not occur as a substring of any line of the
approved file's patch (the unconditional claim fails when the names
overlap — see the counterexample). -/
theorem C2_patch_filtering (r : ReviewResult) (f0 f1 : DiffFile)
    (hfiles : r.files = [f0, f1])
    (h0 : decisionAt r.decisions 0 = .approved)
    (h1 : decisionAt r.decisions 1 = .rejected)
    (hno : ∀ l ∈ formatFilePatchLines f0, strHas l f1.name = false) :
    (∀ r' : ReviewResult,
       r'.generatePatchLines =
         ((r'.files.enum.filter
             (fun p => decide (decisionAt r'.decisions p.1 = .approved))).map
            Prod.snd).flatMap formatFilePatchLines) ∧
    (∀ r' : ReviewResult, r'.approvedFiles = [] → r'.generatePatchLines = []) ∧
    (∃ l ∈ r.generatePatchLines, strHas l f0.name = true) ∧
    (∀ l ∈ r.generatePatchLines, strHas l f1.name = false) := by
  have hgen : ∀ r' : ReviewResult,
      r'.generatePatchLines =
        ((r'.files.enum.filter
            (fun p => decide (decisionAt r'.decisions p.1 = .approved))).map
           Prod.snd).flatMap formatFilePatchLines := by
    intro r'
    unfold ReviewResult.generatePatchLines
    rw [show r'.approvedFiles =
        ((r'.files.enum.filter
            (fun p => decide (decisionAt r'.decisions p.1 = .approved))).map
           Prod.snd) from approvedFilesAux_eq r'.decisions r'.files 0]
    split
    · rename_i hlen
      rw [List.length_eq_zero] at hlen
      rw [hlen]
      rfl
    · rfl
  have happroved : r.approvedFiles = [f0] := by
    unfold ReviewResult.approvedFiles
    rw [hfiles]
    simp only [approvedFilesAux, h0, h1]
    simp
  have hlines : r.generatePatchLines = formatFilePatchLines f0 := by
    unfold ReviewResult.generatePatchLines
    rw [happroved]
    simp
  refine ⟨hgen, ?_, ?_, ?_⟩
  · intro r' hempty
    unfold ReviewResult.generatePatchLines
    rw [hempty]
    rfl
  · refine ⟨"diff --git a/" ++ f0.name ++ " b/" ++ f0.name, ?_, ?_⟩
    · rw [hlines]
      unfold formatFilePatchLines
      simp
    · have := strHas_middle "diff --git a/" f0.name (" b/" ++ f0.name)
      rw [← String.append_assoc] at this
      exact this
  · intro l hl
    rw [hlines] at hl
    exact hno l hl

/-- C2 counterexample: with the rejected file named `b.go` and the
approved file named `ab.go`, the regenerated patch does contain the
rejected file's name (inside every `ab.go` header line), so the
unconditional "omits the rejected file's name entirely" part of the claim
is false. -/
theorem C2_counterexample :
    exC2Result.approvedFiles = [fileAB] ∧
    exC2Result.rejectedFiles = [fileB] ∧
    fileB.name = "b.go" ∧
    (exC2Result.generatePatchLines.any (fun l => strHas l "b.go")) = true := by
  refine ⟨by decide, by decide, by decide, by decide⟩

theorem C2_patch_filtering_witness :
    (exC2Good.files = [fileC, fileB] ∧
     decisionAt exC2Good.decisions 0 = .approved ∧
     decisionAt exC2Good.decisions 1 = .rejected ∧
     ∀ l ∈ formatFilePatchLines fileC, strHas l fileB.name = false) ∧
    ((∃ l ∈ exC2Good.generatePatchLines, strHas l fileC.name = true) ∧
     (∀ l ∈ exC2Good.generatePatchLines, strHas l fileB.name = false)) := by
  have h := C2_patch_filtering exC2Good fileC fileB rfl (by decide) (by decide)
    (by decide)
  exact ⟨⟨rfl, by decide, by decide, by decide⟩, h.2.2.1, h.2.2.2⟩

theorem mem_scanFrag {α : Type} {inc : LineOp → Bool} {step : Nat → DiffLine → List α}
    {x : α} : ∀ {n : Nat} {ls : List DiffLine},
    x ∈ scanFrag inc step n ls → ∃ k l, l ∈ ls ∧ x ∈ step k l := by
  intro n ls
  induction ls generalizing n with
  | nil => intro h; exact absurd h (by simp [scanFrag])
  | cons l rest ih =>
    intro h
    simp only [scanFrag, List.mem_append] at h
    rcases h with h | h
    · exact ⟨n, l, by simp, h⟩
    · obtain ⟨k, l', hmem, hx⟩ := ih h
      exact ⟨k, l', by simp [hmem], hx⟩

theorem mem_scanNew {α : Type} {step : Nat → DiffLine → List α} {f : DiffFile}
    {x : α} (h : x ∈ scanNew step f) : ∃ k l, x ∈ step k l := by
  unfold scanNew at h
  simp only [List.mem_flatMap] at h
  obtain ⟨fr, _, hx⟩ := h
  obtain ⟨k, l, _, hx⟩ := mem_scanFrag hx
  exact ⟨k, l, hx⟩

theorem mem_scanOld {α : Type} {step : Nat → DiffLine → List α} {f : DiffFile}
    {x : α} (h : x ∈ scanOld step f) : ∃ k l, x ∈ step k l := by
  unfold scanOld at h
  simp only [List.mem_flatMap] at h
  obtain ⟨fr, _, hx⟩ := h
  obtain ⟨k, l, _, hx⟩ := mem_scanFrag hx
  exact ⟨k, l, hx⟩

theorem dedupAux_subset : ∀ (seen : List String) (l : List Finding) (x : Finding),
    x ∈ dedupAux seen l → x ∈ l := by
  intro seen l
  induction l generalizing seen with
  | nil => intro x h; exact absurd h (by simp [dedupAux])
  | cons f rest ih =>
    intro x h
    simp only [dedupAux] at h
    split at h
    · exact List.mem_cons_of_mem _ (ih _ x h)
    · rcases List.mem_cons.mp h with he | hm
      · exact he ▸ List.mem_cons_self _ _
      · exact List.mem_cons_of_mem _ (ih _ x hm)

/-- Every finding any pass emits carries risk at least `low` (no pass
emits an `info`-risk finding). -/
theorem passByName_risk_lb (eng : RegexEngine) (fsys : FileSys)
    (groups : DupGroups) (name : String) (ds : DiffSet) (repoDir : String) :
    ∀ fd ∈ passByName eng fsys groups name ds repoDir,
      RiskLevel.low.toNat ≤ fd.risk.toNat := by
  intro fd hfd
  unfold passByName at hfd
  split at hfd
  · -- deps
    unfold NewDependencyPass at hfd
    simp only [List.mem_flatMap] at hfd
    obtain ⟨f, _, hfd⟩ := hfd
    split at hfd
    · exact absurd hfd (by simp)
    · simp only [List.mem_map] at hfd
      obtain ⟨d, _, he⟩ := hfd
      rw [← he]
      simp [RiskLevel.toNat]
  · split at hfd
    · -- security
      unfold SecuritySurfacePass at hfd
      have hfd := dedupAux_subset _ _ _ hfd
      simp only [List.mem_flatMap] at hfd
      obtain ⟨f, _, hfd⟩ := hfd
      obtain ⟨k, l, hx⟩ := mem_scanNew hfd
      split at hx
      · split at hx
        · exact absurd hx (by simp)
        · simp only [List.mem_flatMap] at hx
          obtain ⟨sp, hsp, hx⟩ := hx
          split at hx
          · simp only [List.mem_singleton] at hx
            rw [hx]
            have hall : ∀ g ∈ securityPatterns, g.risk = .high ∨ g.risk = .medium := by
              decide
            rcases hall sp hsp with h | h <;> simp [h, RiskLevel.toNat]
          · exact absurd hx (by simp)
      · exact absurd hx (by simp)
    · split at hfd
      · -- deleted
        unfold DeletedCodePass at hfd
        simp only [List.mem_flatMap, List.mem_map] at hfd
        obtain ⟨f, _, fn, _, he⟩ := hfd
        rw [← he]
        split <;> simp [RiskLevel.toNat]
      · split at hfd
        · -- schema
          unfold SchemaChangePass at hfd
          simp only [List.mem_flatMap, List.mem_append] at hfd
          obtain ⟨f, _, hfd | hfd⟩ := hfd
          · split at hfd
            · simp only [List.mem_singleton] at hfd
              rw [hfd]
              simp [RiskLevel.toNat]
            · exact absurd hfd (by simp)
          · unfold checkDDL at hfd
            obtain ⟨k, l, hx⟩ := mem_scanNew hfd
            split at hx
            · split at hx
              · simp only [List.mem_singleton] at hx
                rw [hx]
                simp [RiskLevel.toNat]
              · exact absurd hx (by simp)
            · exact absurd hx (by simp)
        · split at hfd
          · -- anti_patterns
            unfold antiPatternFindings at hfd
            rcases List.mem_append.mp hfd with hfd | hfd
            · simp only [List.mem_flatMap, List.mem_append] at hfd
              obtain ⟨f, _, hfd⟩ := hfd
              rcases hfd with (hfd | hfd) | hfd
              · unfold checkBroadExceptions at hfd
                obtain ⟨k, l, hx⟩ := mem_scanNew hfd
                split at hx
                · split at hx
                  · simp only [List.mem_singleton] at hx
                    rw [hx]; simp [RiskLevel.toNat]
                  · exact absurd hx (by simp)
                · exact absurd hx (by simp)
              · unfold checkCommentedCode at hfd
                obtain ⟨k, l, hx⟩ := mem_scanNew hfd
                split at hx
                · split at hx
                  · simp only [List.mem_singleton] at hx
                    rw [hx]
                  · exact absurd hx (by simp)
                · exact absurd hx (by simp)
              · unfold checkTodos at hfd
                obtain ⟨k, l, hx⟩ := mem_scanNew hfd
                split at hx
                · split at hx
                  · simp only [List.mem_singleton] at hx
                    rw [hx]
                  · exact absurd hx (by simp)
                · exact absurd hx (by simp)
            · unfold checkDuplicationFrom at hfd
              simp only [List.mem_flatMap] at hfd
              obtain ⟨g, _, hfd⟩ := hfd
              split at hfd
              · exact absurd hfd (by simp)
              · simp only [List.mem_map] at hfd
                obtain ⟨loc, _, he⟩ := hfd
                rw [← he]
                simp [RiskLevel.toNat]
          · split at hfd
            · -- blast_radius
              unfold BlastRadiusPass at hfd
              split at hfd
              · exact absurd hfd (by simp)
              · simp only [List.mem_flatMap] at hfd
                obtain ⟨f, _, fn, _, hfd⟩ := hfd
                split at hfd
                · simp only [List.mem_singleton] at hfd
                  rw [hfd]; simp [RiskLevel.toNat]
                · split at hfd
                  · simp only [List.mem_singleton] at hfd
                    rw [hfd]; simp [RiskLevel.toNat]
                  · exact absurd hfd (by simp)
            · exact absurd hfd (by simp)

theorem run_risk_lb (eng : RegexEngine) (fsys : FileSys) (ds : DiffSet)
    (repoDir : String) (skip : List String) :
    ∀ fd ∈ Run eng fsys ds repoDir skip,
      RiskLevel.low.toNat ≤ fd.risk.toNat := by
  intro fd hfd
  unfold Run runWith at hfd
  simp only [List.mem_flatMap] at hfd
  obtain ⟨n, _, hfd⟩ := hfd
  exact passByName_risk_lb eng fsys (collectBlocks ds) n ds repoDir fd hfd

theorem maxRisk_fold_ge : ∀ (l : List Finding) (m : RiskLevel),
    m.toNat ≤ (l.foldl (fun m f => if m.toNat < f.risk.toNat then f.risk else m) m).toNat ∧
    ∀ fd ∈ l,
      fd.risk.toNat ≤
        (l.foldl (fun m f => if m.toNat < f.risk.toNat then f.risk else m) m).toNat := by
  intro l
  induction l with
  | nil => intro m; exact ⟨Nat.le_refl _, by simp⟩
  | cons f rest ih =>
    intro m
    rw [List.foldl_cons]
    set m' := if m.toNat < f.risk.toNat then f.risk else m with hm'
    have hmle : m.toNat ≤ m'.toNat ∧ f.risk.toNat ≤ m'.toNat := by
      rw [hm']
      split <;> omega
    constructor
    · exact Nat.le_trans hmle.1 (ih m').1
    · intro fd hfd
      rcases List.mem_cons.mp hfd with he | hmem
      · exact he ▸ Nat.le_trans hmle.2 (ih m').1
      · exact (ih m').2 fd hmem

theorem maxRisk_fold_cases : ∀ (l : List Finding) (m : RiskLevel),
    (l.foldl (fun m f => if m.toNat < f.risk.toNat then f.risk else m) m) = m ∨
    ∃ fd ∈ l,
      (l.foldl (fun m f => if m.toNat < f.risk.toNat then f.risk else m) m) = fd.risk := by
  intro l
  induction l with
  | nil => intro m; exact Or.inl rfl
  | cons f rest ih =>
    intro m
    rw [List.foldl_cons]
    split
    · rcases ih f.risk with h | ⟨fd, hmem, he⟩
      · exact Or.inr ⟨f, by simp, h⟩
      · exact Or.inr ⟨fd, by simp [hmem], he⟩
    · rcases ih m with h | ⟨fd, hmem, he⟩
      · exact Or.inl h
      · exact Or.inr ⟨fd, by simp [hmem], he⟩

/-- C7: the CLI check exit-code signal of the analysis output is 0 when
there are no findings, 1 when there is at least one finding and all are
below `high`, and 2 when some finding is `high` or above. -/
theorem C7_exit_codes (eng : RegexEngine) (fsys : FileSys) (ds : DiffSet)
    (repoDir : String) (skip : List String) :
    (Run eng fsys ds repoDir skip = [] →
       exitSignal (Run eng fsys ds repoDir skip) = 0) ∧
    (Run eng fsys ds repoDir skip ≠ [] →
       (∀ fd ∈ Run eng fsys ds repoDir skip,
           fd.risk.toNat < RiskLevel.high.toNat) →
       exitSignal (Run eng fsys ds repoDir skip) = 1) ∧
    ((∃ fd ∈ Run eng fsys ds repoDir skip,
         RiskLevel.high.toNat ≤ fd.risk.toNat) →
       exitSignal (Run eng fsys ds repoDir skip) = 2) := by
  set fs := Run eng fsys ds repoDir skip with hfs
  refine ⟨?_, ?_, ?_⟩
  · intro he
    rw [he]
    rfl
  · intro hne hall
    have hcases := maxRisk_fold_cases fs .info
    have hmax : (maxRiskOf fs).toNat < RiskLevel.high.toNat := by
      unfold maxRiskOf
      rcases hcases with h | ⟨fd, hmem, he⟩
      · rw [h]; decide
      · rw [he]; exact hall fd hmem
    have hlow : RiskLevel.low.toNat ≤ (maxRiskOf fs).toNat := by
      obtain ⟨fd, hmem⟩ := List.exists_mem_of_ne_nil fs hne
      have h1 := run_risk_lb eng fsys ds repoDir skip fd (hfs ▸ hmem)
      have h2 := (maxRisk_fold_ge fs .info).2 fd hmem
      unfold maxRiskOf
      omega
    unfold exitSignal
    rw [if_neg (by omega), if_pos hlow]
  · intro ⟨fd, hmem, hhigh⟩
    have h2 := (maxRisk_fold_ge fs .info).2 fd hmem
    unfold exitSignal
    rw [if_pos (by unfold maxRiskOf; omega)]

theorem C7_exit_codes_witness :
    Run nullEngine [] (DiffSet.mk []) "" [] = [] ∧
    exitSignal (Run nullEngine [] (DiffSet.mk []) "" []) = 0 :=
  ⟨by decide, (C7_exit_codes nullEngine [] (DiffSet.mk []) "" []).1 (by decide)⟩

theorem perm_flatMap_left {α β : Type} (f : α → List β) {l₁ l₂ : List α}
    (h : l₁.Perm l₂) : (l₁.flatMap f).Perm (l₂.flatMap f) := by
  rw [List.flatMap_def, List.flatMap_def]
  exact (h.map f).flatten

theorem perm_flatMap_congr {α β : Type} {l : List α} {f g : α → List β}
    (h : ∀ x ∈ l, (f x).Perm (g x)) : (l.flatMap f).Perm (l.flatMap g) := by
  induction l with
  | nil => simp
  | cons a t ih =>
    simp only [List.flatMap_cons]
    exact (h a (by simp)).append (ih (fun x hx => h x (by simp [hx])))

theorem passByName_groups_perm (eng : RegexEngine) (fsys : FileSys)
    {go₁ go₂ : DupGroups} (h : go₁.Perm go₂) (n : String) (ds : DiffSet)
    (repoDir : String) :
    (passByName eng fsys go₁ n ds repoDir).Perm
      (passByName eng fsys go₂ n ds repoDir) := by
  unfold passByName
  split
  · exact List.Perm.refl _
  · split
    · exact List.Perm.refl _
    · split
      · exact List.Perm.refl _
      · split
        · exact List.Perm.refl _
        · split
          · unfold antiPatternFindings
            exact List.Perm.append_left _ (perm_flatMap_left _ h)
          · split
            · exact List.Perm.refl _
            · exact List.Perm.refl _

/-- C9: with an empty repository root, two invocations of `Run` agree up
to permutation — the Go map iteration orders over the pass registry and
over the duplication buckets (the two unordered iterations in the
engine) only permute the findings, never change their multiset. -/
theorem C9_run_determinism (eng : RegexEngine) (fsys : FileSys) (ds : DiffSet)
    (skip : List String) (po₁ po₂ : List String) (go₁ go₂ : DupGroups)
    (hp1 : po₁.Perm passNamesList) (hp2 : po₂.Perm passNamesList)
    (hg1 : go₁.Perm (collectBlocks ds)) (hg2 : go₂.Perm (collectBlocks ds)) :
    (runWith eng fsys po₁ go₁ ds "" skip).Perm
      (runWith eng fsys po₂ go₂ ds "" skip) := by
  have key : ∀ (po : List String) (go : DupGroups),
      po.Perm passNamesList → go.Perm (collectBlocks ds) →
      (runWith eng fsys po go ds "" skip).Perm
        (runWith eng fsys passNamesList (collectBlocks ds) ds "" skip) := by
    intro po go hp hg
    unfold runWith
    have h1 := perm_flatMap_left
      (fun n => passByName eng fsys go n ds "")
      (hp.filter (fun n => !(skip.contains n)))
    have h2 : ((passNamesList.filter (fun n => !(skip.contains n))).flatMap
          (fun n => passByName eng fsys go n ds "")).Perm
        ((passNamesList.filter (fun n => !(skip.contains n))).flatMap
          (fun n => passByName eng fsys (collectBlocks ds) n ds "")) :=
      perm_flatMap_congr (fun n _ => passByName_groups_perm eng fsys hg n ds "")
    exact h1.trans h2
  exact (key po₁ go₁ hp1 hg1).trans (key po₂ go₂ hp2 hg2).symm

theorem C9_run_determinism_witness :
    (runWith nullEngine [] passNamesList
        (collectBlocks (DiffSet.mk [fileAB])) (DiffSet.mk [fileAB]) "" []).Perm
      (runWith nullEngine []
        ["blast_radius", "anti_patterns", "schema", "deleted", "security", "deps"]
        (collectBlocks (DiffSet.mk [fileAB])) (DiffSet.mk [fileAB]) "" []) :=
  C9_run_determinism nullEngine [] (DiffSet.mk [fileAB]) []
    passNamesList
    ["blast_radius", "anti_patterns", "schema", "deleted", "security", "deps"]
    (collectBlocks (DiffSet.mk [fileAB])) (collectBlocks (DiffSet.mk [fileAB]))
    (List.Perm.refl _) (by decide) (List.Perm.refl _) (List.Perm.refl _)

theorem flatMap_congr_fun {α β : Type} (l : List α) (f g : α → List β)
    (h : ∀ x ∈ l, f x = g x) : l.flatMap f = l.flatMap g := by
  induction l with
  | nil => rfl
  | cons a t ih =>
    simp only [List.flatMap_cons]
    rw [h a (by simp), ih (fun x hx => h x (by simp [hx]))]

theorem findTestReferences_ne_nil (fs : FileSys) (repoDir p n : String)
    (h : repoDir ≠ "") :
    (findTestReferences fs repoDir p n ≠ []) ↔
      testRefWitness fs repoDir p n = true := by
  unfold findTestReferences testRefWitness
  rw [if_neg (by simpa using h)]
  constructor
  · intro hne
    rcases List.exists_mem_of_ne_nil _ hne with ⟨x, hx⟩
    simp only [List.mem_flatMap, List.mem_map, List.mem_filter] at hx
    obtain ⟨pat, hpat, e, ⟨he, hcond⟩, _⟩ := hx
    rw [List.any_eq_true]
    refine ⟨e, he, ?_⟩
    simp only [Bool.and_eq_true] at hcond
    simp only [Bool.and_eq_true, Bool.or_eq_true]
    refine ⟨?_, hcond.2⟩
    simp only [List.mem_cons, List.mem_singleton] at hpat
    rcases hpat with rfl | rfl | rfl | (rfl | hfalse)
    · exact Or.inl (Or.inl (Or.inl hcond.1))
    · exact Or.inl (Or.inl (Or.inr hcond.1))
    · exact Or.inl (Or.inr hcond.1)
    · exact Or.inr hcond.1
    · exact absurd hfalse (by simp)
  · intro hany hnil
    rw [List.any_eq_true] at hany
    obtain ⟨e, he, hcond⟩ := hany
    simp only [Bool.and_eq_true, Bool.or_eq_true] at hcond
    obtain ⟨hg, hww⟩ := hcond
    have hmem : ∀ pat, pat ∈ [pathJoin (pathDir (pathJoin repoDir p)) "*_test.*",
        pathJoin (pathDir (pathJoin repoDir p)) "test_*",
        pathJoin (pathDir (pathJoin repoDir p)) "*_spec.*",
        pathJoin (pathJoin (pathDir (pathJoin repoDir p)) "**") "*_test.*"] →
        globMatch pat e.1 = true →
        False := by
      intro pat hpat hglob
      have : relPath repoDir e.1 ∈
          ([pathJoin (pathDir (pathJoin repoDir p)) "*_test.*",
            pathJoin (pathDir (pathJoin repoDir p)) "test_*",
            pathJoin (pathDir (pathJoin repoDir p)) "*_spec.*",
            pathJoin (pathJoin (pathDir (pathJoin repoDir p)) "**") "*_test.*"].flatMap
            (fun pat =>
              (fs.filter (fun e => globMatch pat e.1 && countWW n.data e.2.data > 0)).map
                (fun e => relPath repoDir e.1))) := by
        rw [List.mem_flatMap]
        refine ⟨pat, hpat, ?_⟩
        simp only [List.mem_map]
        refine ⟨e, List.mem_filter.mpr ⟨he, ?_⟩, rfl⟩
        simp [hglob, hww]
      rw [hnil] at this
      exact absurd this (by simp)
    rcases hg with ((hg | hg) | hg) | hg
    · exact hmem _ (by simp) hg
    · exact hmem _ (by simp) hg
    · exact hmem _ (by simp) hg
    · exact hmem _ (by simp) hg

/-- C8 as amended: one finding per deleted function; the finding is
`error`-severity/`high`-risk exactly when a test file in the changed
file's directory (the three sibling conventions) *or one directory level
below it* (via the `dir/**/*_test.*` glob) contains a whole-word
reference to the name, and `info`/`low` otherwise.  The original claim's
"sibling only" reading fails on the fourth glob — see the
counterexample. -/
theorem C8_amended (eng : RegexEngine) (fs : FileSys) (ds : DiffSet)
    (repoDir : String) (h : repoDir ≠ "") :
    (DeletedCodePass eng fs ds repoDir).map
        (fun fd => (fd.file, fd.line, fd.severity, fd.risk)) =
      ds.files.flatMap (fun f =>
        (extractDeletedFunctions eng f).map (fun fn =>
          if testRefWitness fs repoDir f.name fn.1 then
            (f.name, fn.2, Severity.error, RiskLevel.high)
          else (f.name, fn.2, Severity.info, RiskLevel.low))) := by
  unfold DeletedCodePass
  rw [List.map_flatMap]
  apply flatMap_congr_fun
  intro f _
  rw [List.map_map]
  apply List.map_congr_left
  intro fn _
  simp only [Function.comp]
  split
  · rename_i hlen
    have hne : findTestReferences fs repoDir f.name fn.1 ≠ [] := by
      intro hc
      rw [hc] at hlen
      exact absurd hlen (by simp)
    rw [if_pos ((findTestReferences_ne_nil fs repoDir f.name fn.1 h).mp hne)]
  · rename_i hlen
    have heq : findTestReferences fs repoDir f.name fn.1 = [] := by
      rcases hxx : findTestReferences fs repoDir f.name fn.1 with _ | ⟨a, t⟩
      · rfl
      · rw [hxx] at hlen
        exact absurd (by simp) hlen
    have hwit : ¬testRefWitness fs repoDir f.name fn.1 = true := fun hw =>
      ((findTestReferences_ne_nil fs repoDir f.name fn.1 h).mpr hw) heq
    rw [if_neg hwit]

/-- C8 counterexample: the only test file referencing the deleted
function sits one directory *below* the changed file's directory (no
sibling test file matches any of the three sibling conventions), yet the
pass emits the `error`/`high` finding — the claim's "otherwise
`info`/`low`" branch is wrong for the `dir/**/*_test.*` glob. -/
theorem C8_counterexample :
    ((DeletedCodePass goFuncEngine exC8Fs exC8Ds "repo").map
        (fun fd => (fd.file, fd.line, fd.severity, fd.risk))) =
      [("pkg/main.go", 1, Severity.error, RiskLevel.high)] ∧
    (∀ e ∈ exC8Fs,
       (globMatch "repo/pkg/*_test.*" e.1 ||
        globMatch "repo/pkg/test_*" e.1 ||
        globMatch "repo/pkg/*_spec.*" e.1) = false) := by
  refine ⟨by decide, by decide⟩

theorem C8_amended_witness :
    ("repo" : String) ≠ "" ∧
    ((DeletedCodePass goFuncEngine exC8Fs exC8Ds "repo").map
        (fun fd => (fd.file, fd.line, fd.severity, fd.risk)) =
      exC8Ds.files.flatMap (fun f =>
        (extractDeletedFunctions goFuncEngine f).map (fun fn =>
          if testRefWitness exC8Fs "repo" f.name fn.1 then
            (f.name, fn.2, Severity.error, RiskLevel.high)
          else (f.name, fn.2, Severity.info, RiskLevel.low)))) :=
  ⟨by decide, C8_amended goFuncEngine exC8Fs exC8Ds "repo" (by decide)⟩

/-- C1 counterexample: for a renamed file the round trip preserves the
file count and the add/delete counts but not the display name —
`formatFilePatch` emits no rename headers, so the reparsed file is not
renamed and displays `new.go` instead of `old.go → new.go`, falsifying
the claim's "same display names" conjunct. -/
theorem C1_counterexample :
    parsedNames renameDiffLines = some ["old.go → new.go"] ∧
    roundtripNames renameDiffLines = some ["new.go"] ∧
    (["new.go"] : List String) ≠ ["old.go → new.go"] ∧
    parsedCounts renameDiffLines = some [(1, 1)] ∧
    (regenLines renameDiffLines).bind parsedCounts = some [(1, 1)] := by
  refine ⟨by decide, by decide, by decide, by decide, by decide⟩

theorem fmt_cons (f : DiffFile) :
    formatFilePatchLines f = gitLineOf f :: fmtTail f := by
  unfold formatFilePatchLines gitLineOf fmtTail modeLinesOf oldNameOut newNameOut
  rfl

/-! ## Round-trip lemmas: re-parsing the printed patch -/

theorem mk_data_eta (s : String) : String.mk s.data = s := rfl

theorem leadsWith_append_left (p : List Char) : ∀ (q r : List Char),
    p.length ≤ q.length → leadsWith p (q ++ r) = leadsWith p q := by
  induction p with
  | nil => intro q r _; rfl
  | cons a as ih =>
    intro q r h
    cases q with
    | nil => simp at h
    | cons b bs =>
      simp only [List.cons_append, leadsWith, List.append_eq]
      rw [ih bs r (by simpa using h)]

theorem leadsWith_append_false (p : List Char) : ∀ (q r : List Char),
    leadsWith (p.take q.length) q = false → leadsWith p (q ++ r) = false := by
  induction p with
  | nil => intro q r h; simp [leadsWith, List.take] at h
  | cons a as ih =>
    intro q r h
    cases q with
    | nil => simp [leadsWith] at h
    | cons b bs =>
      simp only [List.length_cons, List.take_succ_cons, leadsWith] at h ⊢
      cases hab : a == b with
      | false => simp [hab]
      | true =>
        simp only [hab, Bool.true_and] at h ⊢
        exact ih bs r h

theorem dropPre?_append : ∀ (p r : List Char), dropPre? p (p ++ r) = some r := by
  intro p r
  induction p with
  | nil => rfl
  | cons a as ih => simp [dropPre?, ih]

theorem strHasPre_of_append (p rest : String) : strHasPre p (p ++ rest) = true := by
  unfold strHasPre
  rw [String.data_append]
  exact leadsWith_self_append _ _

theorem strHasPre_app_eq (p q rest : String) (h : p.data.length ≤ q.data.length) :
    strHasPre p (q ++ rest) = strHasPre p q := by
  unfold strHasPre
  rw [String.data_append]
  exact leadsWith_append_left _ _ _ h

theorem strHasPre_app_false (p q rest : String)
    (h : leadsWith (p.data.take q.data.length) q.data = false) :
    strHasPre p (q ++ rest) = false := by
  unfold strHasPre
  rw [String.data_append]
  exact leadsWith_append_false _ _ _ h

theorem classify_git (y : String) :
    classifyHeader ("diff --git " ++ y) = .fileStart := by
  unfold classifyHeader
  rw [strHasPre_of_append]
  simp

theorem classify_hunkHead (y : String) :
    classifyHeader ("@@ -" ++ y) = .hunk := by
  unfold classifyHeader
  rw [strHasPre_app_false "diff --git " "@@ -" y (by decide),
    strHasPre_of_append]
  simp

theorem classify_dashes (y : String) :
    classifyHeader ("--- " ++ y) = .oldNameLine y := by
  unfold classifyHeader
  rw [strHasPre_app_false "diff --git " "--- " y (by decide)]
  have h2 : strHasPre "@@ -" ("--- " ++ y) = false := by
    rw [strHasPre_app_eq "@@ -" "--- " y (by decide)]; decide
  rw [h2, strHasPre_of_append "--- " y]
  simp only [Bool.false_eq_true, if_false, if_true]
  rfl

theorem classify_pluses (y : String) :
    classifyHeader ("+++ " ++ y) = .newNameLine y := by
  unfold classifyHeader
  rw [strHasPre_app_false "diff --git " "+++ " y (by decide)]
  have h2 : strHasPre "@@ -" ("+++ " ++ y) = false := by
    rw [strHasPre_app_eq "@@ -" "+++ " y (by decide)]; decide
  have h3 : strHasPre "--- " ("+++ " ++ y) = false := by
    rw [strHasPre_app_eq "--- " "+++ " y (by decide)]; decide
  rw [h2, h3, strHasPre_of_append "+++ " y]
  simp only [Bool.false_eq_true, if_false, if_true]
  rfl

theorem classify_newMode : classifyHeader "new file mode 100644" = .newFileMode := by
  rfl

theorem classify_delMode :
    classifyHeader "deleted file mode 100644" = .deletedFileMode := by
  rfl

theorem aSlash_ne_devnull (x : String) : ("a/" ++ x) ≠ "/dev/null" := by
  intro h
  have hd := congrArg String.data h
  rw [String.data_append] at hd
  rw [show ("a/" : String).data = 'a' :: '/' :: [] from by decide] at hd
  rw [show ("/dev/null" : String).data = '/' :: "dev/null".data from by decide] at hd
  simp only [List.cons_append, List.cons.injEq] at hd
  exact absurd hd.1 (by decide)

theorem bSlash_ne_devnull (x : String) : ("b/" ++ x) ≠ "/dev/null" := by
  intro h
  have hd := congrArg String.data h
  rw [String.data_append] at hd
  rw [show ("b/" : String).data = 'b' :: '/' :: [] from by decide] at hd
  rw [show ("/dev/null" : String).data = '/' :: "dev/null".data from by decide] at hd
  simp only [List.cons_append, List.cons.injEq] at hd
  exact absurd hd.1 (by decide)

theorem parseNameTail_a (x : String) :
    parseNameTail "a/" ("a/" ++ x) = .ok x := by
  unfold parseNameTail
  rw [if_neg (aSlash_ne_devnull x)]
  unfold strDropPre?
  rw [String.data_append, dropPre?_append]
  rfl

theorem parseNameTail_b (x : String) :
    parseNameTail "b/" ("b/" ++ x) = .ok x := by
  unfold parseNameTail
  rw [if_neg (bSlash_ne_devnull x)]
  unfold strDropPre?
  rw [String.data_append, dropPre?_append]
  rfl

theorem str_ext {s t : String} (h : s.data = t.data) : s = t := by
  cases s; cases t; exact congrArg String.mk h

theorem gitLineOf_eq (f : DiffFile) :
    gitLineOf f = "diff --git " ++ ("a/" ++ f.name ++ " b/" ++ f.name) := by
  unfold gitLineOf
  apply str_ext
  simp [String.data_append, List.append_assoc]

theorem dashLine_eq (x : String) : ("--- a/" ++ x) = "--- " ++ ("a/" ++ x) := by
  apply str_ext
  simp [String.data_append, List.append_assoc]

theorem plusLine_eq (x : String) : ("+++ b/" ++ x) = "+++ " ++ ("b/" ++ x) := by
  apply str_ext
  simp [String.data_append, List.append_assoc]

theorem natCharsCore_shift (n : Nat) : ∀ (fuel : Nat) (acc : List Char),
    n < fuel → natCharsCore fuel n acc = natChars n ++ acc := by
  induction n using Nat.strong_induction_on with
  | _ n ih =>
    intro fuel acc hf
    cases fuel with
    | zero => omega
    | succ f =>
      unfold natChars
      simp only [natCharsCore]
      by_cases h10 : n < 10
      · simp [h10]
      · have hdiv : n / 10 < n := Nat.div_lt_self (by omega) (by omega)
        simp only [h10, if_false]
        rw [ih (n / 10) hdiv f _ (by omega),
            ih (n / 10) hdiv n _ (by omega)]
        simp

theorem natChars_unfold (n : Nat) :
    natChars n = if n < 10 then [Char.ofNat (48 + n)]
      else natChars (n / 10) ++ [Char.ofNat (48 + n % 10)] := by
  conv_lhs => unfold natChars natCharsCore
  by_cases h10 : n < 10
  · simp [h10]
  · have hdiv : n / 10 < n := Nat.div_lt_self (by omega) (by omega)
    simp only [h10, if_false]
    rw [natCharsCore_shift (n / 10) n _ (by omega)]

theorem digitVal?_ofNat (r : Nat) (h : r < 10) :
    digitVal? (Char.ofNat (48 + r)) = some r := by
  interval_cases r <;> decide

theorem natChars_digits (n : Nat) : ∀ c ∈ natChars n, (digitVal? c).isSome := by
  induction n using Nat.strong_induction_on with
  | _ n ih =>
    intro c hc
    rw [natChars_unfold] at hc
    by_cases h10 : n < 10
    · rw [if_pos h10] at hc
      simp only [List.mem_singleton] at hc
      subst hc
      rw [digitVal?_ofNat n h10]
      rfl
    · rw [if_neg h10] at hc
      rcases List.mem_append.mp hc with hm | hm
      · exact ih (n / 10) (Nat.div_lt_self (by omega) (by omega)) c hm
      · simp only [List.mem_singleton] at hm
        subst hm
        rw [digitVal?_ofNat (n % 10) (Nat.mod_lt n (by omega))]
        rfl

theorem natChars_ne_nil (n : Nat) : natChars n ≠ [] := by
  rw [natChars_unfold]
  by_cases h10 : n < 10 <;> simp [h10]

theorem natChars_foldl (n : Nat) : ∀ (acc : Nat),
    (natChars n).foldl (fun a c => 10 * a + ((digitVal? c).getD 0)) acc =
      acc * 10 ^ (natChars n).length + n := by
  induction n using Nat.strong_induction_on with
  | _ n ih =>
    intro acc
    rw [natChars_unfold]
    by_cases h10 : n < 10
    · simp [h10, digitVal?_ofNat n h10]
      omega
    · have hdiv : n / 10 < n := Nat.div_lt_self (by omega) (by omega)
      rw [if_neg h10, List.foldl_append, ih (n / 10) hdiv acc]
      simp only [List.foldl_cons, List.foldl_nil, List.length_append,
        List.length_singleton, digitVal?_ofNat (n % 10) (Nat.mod_lt n (by omega)),
        Option.getD_some]
      rw [pow_succ, ← Nat.mul_assoc]
      generalize acc * 10 ^ (natChars (n / 10)).length = B
      omega

theorem readNatAux_digits : ∀ (ds : List Char) (rest : List Char) (acc : Nat),
    (∀ c ∈ ds, (digitVal? c).isSome) →
    (∀ c, rest.head? = some c → digitVal? c = none) →
    readNatAux acc (ds ++ rest) =
      (ds.foldl (fun a c => 10 * a + ((digitVal? c).getD 0)) acc, rest) := by
  intro ds
  induction ds with
  | nil =>
    intro rest acc _ hrest
    cases rest with
    | nil => rfl
    | cons c t =>
      have hc := hrest c rfl
      simp [readNatAux, hc]
  | cons d ds' ih =>
    intro rest acc hds hrest
    obtain ⟨v, hv⟩ := Option.isSome_iff_exists.mp (hds d (List.mem_cons_self d ds'))
    simp only [List.cons_append, readNatAux, hv, List.foldl_cons, Option.getD_some]
    exact ih rest (10 * acc + v) (fun c hc => hds c (List.mem_cons_of_mem d hc)) hrest

theorem readNat_natChars (n : Nat) (rest : List Char)
    (hrest : ∀ c, rest.head? = some c → digitVal? c = none) :
    readNat (natChars n ++ rest) = some (n, rest) := by
  cases hn : natChars n with
  | nil => exact absurd hn (natChars_ne_nil n)
  | cons d ds =>
    have hd : (digitVal? d).isSome :=
      natChars_digits n d (by rw [hn]; exact List.mem_cons_self d ds)
    obtain ⟨v, hv⟩ := Option.isSome_iff_exists.mp hd
    simp only [List.cons_append, readNat, hv]
    rw [readNatAux_digits ds rest v
      (fun c hc => natChars_digits n c (by rw [hn]; exact List.mem_cons_of_mem d hc))
      hrest]
    have hfold := natChars_foldl n 0
    rw [hn] at hfold
    simp only [List.foldl_cons, hv, Option.getD_some, Nat.mul_zero, Nat.zero_add,
      Nat.zero_mul, Nat.zero_add] at hfold
    rw [hfold]

theorem data_mk (l : List Char) : (String.mk l).data = l := rfl

theorem head_nondigit {c : Char} (t : List Char) (h : digitVal? c = none) :
    ∀ x, (c :: t).head? = some x → digitVal? x = none := by
  intro x hx
  simp only [List.head?_cons, Option.some.injEq] at hx
  rw [← hx]
  exact h

theorem fragHeaderOut_data (fr : TextFragment) :
    (fragHeaderOut fr).data =
      '@' :: '@' :: ' ' :: '-' ::
        (natChars fr.oldPosition ++ ',' ::
          (natChars fr.oldLines ++ ' ' :: '+' ::
            (natChars fr.newPosition ++ ',' ::
              (natChars fr.newLines ++ ' ' :: '@' :: '@' ::
                (if fr.comment = "" then [] else ' ' :: fr.comment.data))))) := by
  unfold fragHeaderOut natStr
  by_cases hcm : fr.comment = "" <;>
    simp [hcm, String.data_append, data_mk, List.append_assoc]

theorem opt_some_bind {α β : Type} (a : α) (f : α → Option β) :
    (some a >>= f) = f a := rfl

theorem parseHunkHeader_out (fr : TextFragment) :
    parseHunkHeader (fragHeaderOut fr) =
      some (fr.oldPosition, fr.oldLines, fr.newPosition, fr.newLines, fr.comment) := by
  unfold parseHunkHeader
  rw [fragHeaderOut_data]
  rw [show ("@@ -" : String).data = ['@', '@', ' ', '-'] from by decide]
  simp only [dropPre?, beq_self_eq_true, if_pos, Option.some_bind, opt_some_bind]
  rw [readNat_natChars fr.oldPosition _ (head_nondigit _ (by decide))]
  simp only [Option.some_bind, opt_some_bind]
  simp only [readCount]
  rw [readNat_natChars fr.oldLines _ (head_nondigit _ (by decide))]
  simp only [Option.some_bind, opt_some_bind]
  simp only [dropPre?, beq_self_eq_true, if_pos, Option.some_bind, opt_some_bind]
  rw [readNat_natChars fr.newPosition _ (head_nondigit _ (by decide))]
  simp only [Option.some_bind, opt_some_bind]
  rw [readNat_natChars fr.newLines _ (head_nondigit _ (by decide))]
  simp only [Option.some_bind, opt_some_bind]
  simp only [dropPre?, beq_self_eq_true, if_pos, Option.some_bind, opt_some_bind]
  by_cases hcm : fr.comment = "" <;> simp [hcm, mk_data_eta]

theorem lines_nil_of_counts : ∀ (lns : List DiffLine),
    countOldSteps lns = 0 → countNewSteps lns = 0 → lns = [] := by
  intro lns ho hn
  cases lns with
  | nil => rfl
  | cons l t =>
    obtain ⟨op, text⟩ := l
    cases op <;>
      simp [countOldSteps, countNewSteps, List.filter_cons, LineOp.isContext,
        LineOp.isDelete, LineOp.isAdd] at ho hn

theorem countOldSteps_cons (l : DiffLine) (t : List DiffLine) :
    countOldSteps (l :: t) =
      (if l.op.isContext || l.op.isDelete then 1 else 0) + countOldSteps t := by
  simp only [countOldSteps, List.filter_cons]
  split <;> simp <;> omega

theorem countNewSteps_cons (l : DiffLine) (t : List DiffLine) :
    countNewSteps (l :: t) =
      (if l.op.isContext || l.op.isAdd then 1 else 0) + countNewSteps t := by
  simp only [countNewSteps, List.filter_cons]
  split <;> simp <;> omega

theorem body_fold : ∀ (lns : List DiffLine) (files : List DiffFile)
    (hdr : FileHeaderState) (frags : List TextFragment) (fr : PFrag)
    (rest : List String),
    fr.oldR = countOldSteps lns → fr.newR = countNewSteps lns →
    (fr.oldR ≠ 0 ∨ fr.newR ≠ 0) →
    List.foldlM stepLine (ParseState.inBody files hdr frags fr)
        (lns.map lineOut ++ rest) =
      List.foldlM stepLine (ParseState.inFile files hdr (frags ++
        [⟨fr.oldPosition, fr.oldLines, fr.newPosition, fr.newLines, fr.comment,
          fr.lines ++ lns⟩])) rest := by
  intro lns
  induction lns with
  | nil =>
    intro files hdr frags fr rest ho hn hne
    simp [countOldSteps, countNewSteps] at ho hn
    omega
  | cons l lns' ih =>
    intro files hdr frags fr rest ho hn hne
    obtain ⟨op, text⟩ := l
    rw [List.map_cons, List.cons_append, List.foldlM_cons]
    cases op with
    | context =>
      have hco : countOldSteps (⟨.context, text⟩ :: lns') =
          1 + countOldSteps lns' := by
        simp [countOldSteps_cons, LineOp.isContext]
      have hcn : countNewSteps (⟨.context, text⟩ :: lns') =
          1 + countNewSteps lns' := by
        simp [countNewSteps_cons, LineOp.isContext]
      rw [hco] at ho
      rw [hcn] at hn
      have hstep : stepLine (ParseState.inBody files hdr frags fr)
          (lineOut ⟨.context, text⟩) =
          (if fr.oldR == 0 || fr.newR == 0 then
            .error "fragment line counts exceeded"
          else .ok (completeOr files hdr frags
            { fr with lines := fr.lines ++ [⟨.context, text⟩],
                      oldR := fr.oldR - 1, newR := fr.newR - 1 })) := rfl
      have hg : (fr.oldR == 0 || fr.newR == 0) = false := by
        rw [Bool.or_eq_false_iff, beq_eq_false_iff_ne, beq_eq_false_iff_ne]
        omega
      rw [hstep, hg]
      simp only [Bool.false_eq_true, if_false, except_ok_bind]
      by_cases hz : fr.oldR - 1 = 0 ∧ fr.newR - 1 = 0
      · have hl0 : lns' = [] := lines_nil_of_counts lns' (by omega) (by omega)
        subst hl0
        have hcc : completeOr files hdr frags
            { fr with lines := fr.lines ++ [⟨.context, text⟩],
                      oldR := fr.oldR - 1, newR := fr.newR - 1 } =
            .inFile files hdr (frags ++
              [⟨fr.oldPosition, fr.oldLines, fr.newPosition, fr.newLines,
                fr.comment, fr.lines ++ [⟨.context, text⟩]⟩]) := by
          unfold completeOr
          simp [hz.1, hz.2, finishFrag]
        rw [hcc]
        simp
      · have hcc : completeOr files hdr frags
            { fr with lines := fr.lines ++ [⟨.context, text⟩],
                      oldR := fr.oldR - 1, newR := fr.newR - 1 } =
            .inBody files hdr frags
              { fr with lines := fr.lines ++ [⟨.context, text⟩],
                        oldR := fr.oldR - 1, newR := fr.newR - 1 } := by
          unfold completeOr
          have : ((fr.oldR - 1 == 0) && (fr.newR - 1 == 0)) = false := by
            rw [Bool.and_eq_false_iff]
            rcases Decidable.not_and_iff_or_not.mp hz with h | h
            · exact Or.inl (beq_eq_false_iff_ne.mpr h)
            · exact Or.inr (beq_eq_false_iff_ne.mpr h)
          simp [this]
        rw [hcc, ih files hdr frags _ rest (by simpa using by omega)
          (by simpa using by omega) (by simp; omega)]
        simp [List.append_assoc]
    | delete =>
      have hco : countOldSteps (⟨.delete, text⟩ :: lns') =
          1 + countOldSteps lns' := by
        simp [countOldSteps_cons, LineOp.isContext, LineOp.isDelete]
      have hcn : countNewSteps (⟨.delete, text⟩ :: lns') = countNewSteps lns' := by
        simp [countNewSteps_cons, LineOp.isContext, LineOp.isAdd]
      rw [hco] at ho
      rw [hcn] at hn
      have hstep : stepLine (ParseState.inBody files hdr frags fr)
          (lineOut ⟨.delete, text⟩) =
          (if fr.oldR == 0 then .error "fragment line counts exceeded"
          else .ok (completeOr files hdr frags
            { fr with lines := fr.lines ++ [⟨.delete, text⟩],
                      oldR := fr.oldR - 1 })) := rfl
      have hg : (fr.oldR == 0) = false := beq_eq_false_iff_ne.mpr (by omega)
      rw [hstep, hg]
      simp only [Bool.false_eq_true, if_false, except_ok_bind]
      by_cases hz : fr.oldR - 1 = 0 ∧ fr.newR = 0
      · have hl0 : lns' = [] := lines_nil_of_counts lns' (by omega) (by omega)
        subst hl0
        have hcc : completeOr files hdr frags
            { fr with lines := fr.lines ++ [⟨.delete, text⟩],
                      oldR := fr.oldR - 1 } =
            .inFile files hdr (frags ++
              [⟨fr.oldPosition, fr.oldLines, fr.newPosition, fr.newLines,
                fr.comment, fr.lines ++ [⟨.delete, text⟩]⟩]) := by
          unfold completeOr
          simp [hz.1, hz.2, finishFrag]
        rw [hcc]
        simp
      · have hcc : completeOr files hdr frags
            { fr with lines := fr.lines ++ [⟨.delete, text⟩],
                      oldR := fr.oldR - 1 } =
            .inBody files hdr frags
              { fr with lines := fr.lines ++ [⟨.delete, text⟩],
                        oldR := fr.oldR - 1 } := by
          unfold completeOr
          have : ((fr.oldR - 1 == 0) && (fr.newR == 0)) = false := by
            rw [Bool.and_eq_false_iff]
            rcases Decidable.not_and_iff_or_not.mp hz with h | h
            · exact Or.inl (beq_eq_false_iff_ne.mpr h)
            · exact Or.inr (beq_eq_false_iff_ne.mpr h)
          simp [this]
        rw [hcc, ih files hdr frags _ rest (by simpa using by omega)
          (by simpa using by omega) (by simp; omega)]
        simp [List.append_assoc]
    | add =>
      have hco : countOldSteps (⟨.add, text⟩ :: lns') = countOldSteps lns' := by
        simp [countOldSteps_cons, LineOp.isContext, LineOp.isDelete]
      have hcn : countNewSteps (⟨.add, text⟩ :: lns') =
          1 + countNewSteps lns' := by
        simp [countNewSteps_cons, LineOp.isContext, LineOp.isAdd]
      rw [hco] at ho
      rw [hcn] at hn
      have hstep : stepLine (ParseState.inBody files hdr frags fr)
          (lineOut ⟨.add, text⟩) =
          (if fr.newR == 0 then .error "fragment line counts exceeded"
          else .ok (completeOr files hdr frags
            { fr with lines := fr.lines ++ [⟨.add, text⟩],
                      newR := fr.newR - 1 })) := rfl
      have hg : (fr.newR == 0) = false := beq_eq_false_iff_ne.mpr (by omega)
      rw [hstep, hg]
      simp only [Bool.false_eq_true, if_false, except_ok_bind]
      by_cases hz : fr.oldR = 0 ∧ fr.newR - 1 = 0
      · have hl0 : lns' = [] := lines_nil_of_counts lns' (by omega) (by omega)
        subst hl0
        have hcc : completeOr files hdr frags
            { fr with lines := fr.lines ++ [⟨.add, text⟩],
                      newR := fr.newR - 1 } =
            .inFile files hdr (frags ++
              [⟨fr.oldPosition, fr.oldLines, fr.newPosition, fr.newLines,
                fr.comment, fr.lines ++ [⟨.add, text⟩]⟩]) := by
          unfold completeOr
          simp [hz.1, hz.2, finishFrag]
        rw [hcc]
        simp
      · have hcc : completeOr files hdr frags
            { fr with lines := fr.lines ++ [⟨.add, text⟩],
                      newR := fr.newR - 1 } =
            .inBody files hdr frags
              { fr with lines := fr.lines ++ [⟨.add, text⟩],
                        newR := fr.newR - 1 } := by
          unfold completeOr
          have : ((fr.oldR == 0) && (fr.newR - 1 == 0)) = false := by
            rw [Bool.and_eq_false_iff]
            rcases Decidable.not_and_iff_or_not.mp hz with h | h
            · exact Or.inl (beq_eq_false_iff_ne.mpr h)
            · exact Or.inr (beq_eq_false_iff_ne.mpr h)
          simp [this]
        rw [hcc, ih files hdr frags _ rest (by simpa using by omega)
          (by simpa using by omega) (by simp; omega)]
        simp [List.append_assoc]

theorem fragHeaderOut_shape (fr : TextFragment) :
    fragHeaderOut fr = "@@ -" ++ (natStr fr.oldPosition ++ "," ++
      natStr fr.oldLines ++ " +" ++ natStr fr.newPosition ++ "," ++
      natStr fr.newLines ++ " @@" ++
      (if fr.comment = "" then "" else " " ++ fr.comment)) := by
  unfold fragHeaderOut
  apply str_ext
  simp [String.data_append, List.append_assoc]

theorem frag_fold (fr : TextFragment) (hfr : FragOk fr)
    (files : List DiffFile) (hdr : FileHeaderState) (frags : List TextFragment)
    (rest : List String) :
    List.foldlM stepLine (ParseState.inFile files hdr frags)
        (fragOut fr ++ rest) =
      List.foldlM stepLine (ParseState.inFile files hdr (frags ++ [fr])) rest := by
  obtain ⟨o, ol, n, nl, cm, lns⟩ := fr
  obtain ⟨ho, hn⟩ := hfr
  simp only at ho hn
  unfold fragOut
  rw [List.cons_append, List.foldlM_cons]
  have hcl : classifyHeader (fragHeaderOut ⟨o, ol, n, nl, cm, lns⟩) = .hunk := by
    rw [fragHeaderOut_shape]
    exact classify_hunkHead _
  have hstep : stepLine (ParseState.inFile files hdr frags)
      (fragHeaderOut ⟨o, ol, n, nl, cm, lns⟩) =
      stepFile files hdr frags (fragHeaderOut ⟨o, ol, n, nl, cm, lns⟩) := rfl
  rw [hstep]
  simp only [stepFile, hcl, parseHunkHeader_out, except_ok_bind]
  by_cases hz : ol = 0 ∧ nl = 0
  · have hl0 : lns = [] := lines_nil_of_counts lns (by omega) (by omega)
    subst hl0
    have hcc : completeOr files hdr frags ⟨o, ol, n, nl, cm, [], ol, nl⟩ =
        .inFile files hdr (frags ++ [⟨o, ol, n, nl, cm, []⟩]) := by
      unfold completeOr
      simp [hz.1, hz.2, finishFrag]
    rw [hcc]
    simp
  · have hcc : completeOr files hdr frags ⟨o, ol, n, nl, cm, [], ol, nl⟩ =
        .inBody files hdr frags ⟨o, ol, n, nl, cm, [], ol, nl⟩ := by
      unfold completeOr
      have hb : ((ol == 0) && (nl == 0)) = false := by
        rw [Bool.and_eq_false_iff]
        rcases Decidable.not_and_iff_or_not.mp hz with h | h
        · exact Or.inl (beq_eq_false_iff_ne.mpr h)
        · exact Or.inr (beq_eq_false_iff_ne.mpr h)
      simp [hb]
    rw [hcc, body_fold lns files hdr frags ⟨o, ol, n, nl, cm, [], ol, nl⟩ rest
      (by simpa using ho.symm) (by simpa using hn.symm) (by simp; omega)]
    simp

theorem frags_fold : ∀ (frs : List TextFragment), (∀ fr ∈ frs, FragOk fr) →
    ∀ (files : List DiffFile) (hdr : FileHeaderState)
      (frags : List TextFragment) (rest : List String),
    List.foldlM stepLine (ParseState.inFile files hdr frags)
        (frs.flatMap fragOut ++ rest) =
      List.foldlM stepLine (ParseState.inFile files hdr (frags ++ frs)) rest := by
  intro frs
  induction frs with
  | nil => intro _ files hdr frags rest; simp
  | cons fr frs' ih =>
    intro hok files hdr frags rest
    rw [List.flatMap_cons, List.append_assoc,
      frag_fold fr (hok fr (List.mem_cons_self fr frs')) files hdr frags _,
      ih (fun g hg => hok g (List.mem_cons_of_mem fr hg)) files hdr (frags ++ [fr]) rest]
    simp

theorem step_newmode (files : List DiffFile) (g1 g2 : String) :
    stepLine (ParseState.inFile files ⟨g1, g2, false, false, false, false⟩ [])
      "new file mode 100644" =
    .ok (.inFile files ⟨g1, g2, true, false, false, false⟩ []) := rfl

theorem step_delmode (files : List DiffFile) (g1 g2 : String) :
    stepLine (ParseState.inFile files ⟨g1, g2, false, false, false, false⟩ [])
      "deleted file mode 100644" =
    .ok (.inFile files ⟨g1, g2, false, true, false, false⟩ []) := rfl

theorem step_dash (files : List DiffFile) (g1 g2 : String) (b1 b2 : Bool)
    (x : String) :
    stepLine (ParseState.inFile files ⟨g1, g2, b1, b2, false, false⟩ [])
      ("--- a/" ++ x) =
    .ok (.inFile files ⟨x, g2, b1, b2, false, false⟩ []) := by
  have hcl : classifyHeader ("--- a/" ++ x) = .oldNameLine ("a/" ++ x) := by
    rw [dashLine_eq]
    exact classify_dashes _
  show stepFile files ⟨g1, g2, b1, b2, false, false⟩ [] ("--- a/" ++ x) = _
  simp only [stepFile, hcl, List.isEmpty_nil, if_true, parseNameTail_a]

theorem step_plus (files : List DiffFile) (g1 g2 : String) (b1 b2 : Bool)
    (x : String) :
    stepLine (ParseState.inFile files ⟨g1, g2, b1, b2, false, false⟩ [])
      ("+++ b/" ++ x) =
    .ok (.inFile files ⟨g1, x, b1, b2, false, false⟩ []) := by
  have hcl : classifyHeader ("+++ b/" ++ x) = .newNameLine ("b/" ++ x) := by
    rw [plusLine_eq]
    exact classify_pluses _
  show stepFile files ⟨g1, g2, b1, b2, false, false⟩ [] ("+++ b/" ++ x) = _
  simp only [stepFile, hcl, List.isEmpty_nil, if_true, parseNameTail_b]

theorem hdr_steps (f : DiffFile) (hok : FileOk f) (files : List DiffFile)
    (g1 g2 : String) (rest : List String) :
    List.foldlM stepLine
        (ParseState.inFile files ⟨g1, g2, false, false, false, false⟩ [])
        (fmtTail f ++ rest) =
      List.foldlM stepLine
        (ParseState.inFile files (hdrFinal f) f.fragments) rest := by
  have hfr : ∀ fr ∈ f.fragments, FragOk fr := hok.2.2.2.2.2
  unfold fmtTail hdrFinal
  cases hnew : f.isNew with
  | true =>
    have hdel : f.isDeleted = false := hok.1 hnew
    simp only [modeLinesOf, hnew, hdel, if_true, List.cons_append,
      List.nil_append, List.append_assoc]
    rw [List.foldlM_cons, step_newmode, except_ok_bind,
        List.foldlM_cons, step_dash, except_ok_bind,
        List.foldlM_cons, step_plus, except_ok_bind]
    simpa using frags_fold f.fragments hfr files
      ⟨oldNameOut f, newNameOut f, true, false, false, false⟩ [] rest
  | false =>
    cases hdel : f.isDeleted with
    | true =>
      simp only [modeLinesOf, hnew, hdel, Bool.false_eq_true, if_false, if_true,
        List.cons_append, List.nil_append, List.append_assoc]
      rw [List.foldlM_cons, step_delmode, except_ok_bind,
          List.foldlM_cons, step_dash, except_ok_bind,
          List.foldlM_cons, step_plus, except_ok_bind]
      simpa using frags_fold f.fragments hfr files
        ⟨oldNameOut f, newNameOut f, false, true, false, false⟩ [] rest
    | false =>
      simp only [modeLinesOf, hnew, hdel, Bool.false_eq_true, if_false,
        List.cons_append, List.nil_append, List.append_assoc]
      rw [List.foldlM_cons, step_dash, except_ok_bind,
          List.foldlM_cons, step_plus, except_ok_bind]
      simpa using frags_fold f.fragments hfr files
        ⟨oldNameOut f, newNameOut f, false, false, false, false⟩ [] rest

theorem oldNameOut_ne (f : DiffFile) : oldNameOut f ≠ "" := by
  unfold oldNameOut
  split
  · decide
  · assumption

theorem newNameOut_ne (f : DiffFile) : newNameOut f ≠ "" := by
  unfold newNameOut
  split
  · decide
  · assumption

theorem mkDiffFile_hdrFinal (f : DiffFile) (hok : FileOk f) :
    mkDiffFile (hdrFinal f) f.fragments = .ok (roundFile f) := by
  unfold mkDiffFile hdrFinal roundFile
  have hON : ((oldNameOut f == "") = false) := beq_eq_false_iff_ne.mpr (oldNameOut_ne f)
  have hNN : ((newNameOut f == "") = false) := beq_eq_false_iff_ne.mpr (newNameOut_ne f)
  have hND : (f.isNew && f.isDeleted) = false := by
    cases hn : f.isNew with
    | false => rfl
    | true => simp [hok.1 hn]
  simp only [hON, hNN, hND, Bool.and_false, Bool.false_and,
    Bool.false_eq_true, if_false]

theorem initHeaderState_eq (l : String) :
    initHeaderState l =
      ⟨(gitHeaderNames l).1, (gitHeaderNames l).2, false, false, false, false⟩ := rfl

theorem files_fold : ∀ (fs : List DiffFile), (∀ f ∈ fs, FileOk f) →
    ∀ (files : List DiffFile) (hdr : FileHeaderState)
      (frags : List TextFragment) (g : DiffFile),
    mkDiffFile hdr frags = .ok g →
    (List.foldlM stepLine (ParseState.inFile files hdr frags)
        (fs.flatMap formatFilePatchLines) >>= finishParse) =
      .ok (files ++ g :: fs.map roundFile) := by
  intro fs
  induction fs with
  | nil =>
    intro _ files hdr frags g hmk
    simp only [List.flatMap_nil, List.foldlM_nil]
    have hp : (pure (ParseState.inFile files hdr frags) >>= finishParse :
        Except String (List DiffFile)) = finishParse (.inFile files hdr frags) := rfl
    rw [hp]
    simp only [finishParse, hmk]
    simp
  | cons f fs' ih =>
    intro hok files hdr frags g hmk
    have hmem : FileOk f := hok f (List.mem_cons_self f fs')
    rw [List.flatMap_cons, fmt_cons, List.cons_append, List.foldlM_cons]
    have hstep : stepLine (ParseState.inFile files hdr frags) (gitLineOf f) =
        .ok (.inFile (files ++ [g]) (initHeaderState (gitLineOf f)) []) := by
      have hcl : classifyHeader (gitLineOf f) = .fileStart := by
        rw [gitLineOf_eq]
        exact classify_git _
      show stepFile files hdr frags (gitLineOf f) = _
      simp only [stepFile, hcl, hmk]
    rw [hstep, except_ok_bind, initHeaderState_eq,
      hdr_steps f hmem (files ++ [g]) _ _ _,
      ih (fun x hx => hok x (List.mem_cons_of_mem f hx)) (files ++ [g])
        (hdrFinal f) f.fragments (roundFile f) (mkDiffFile_hdrFinal f hmem)]
    simp

theorem parse_print (fs : List DiffFile) (hok : ∀ f ∈ fs, FileOk f) :
    parseFiles (fs.flatMap formatFilePatchLines) = .ok (fs.map roundFile) := by
  unfold parseFiles
  cases fs with
  | nil => rfl
  | cons f fs' =>
    have hmem : FileOk f := hok f (List.mem_cons_self f fs')
    rw [List.flatMap_cons, fmt_cons, List.cons_append, List.foldlM_cons]
    have hpre : strHasPre "diff --git " (gitLineOf f) = true := by
      rw [gitLineOf_eq]
      exact strHasPre_of_append _ _
    have hstep : stepLine (ParseState.top []) (gitLineOf f) =
        .ok (.inFile [] (initHeaderState (gitLineOf f)) []) := by
      simp only [stepLine, hpre, if_true]
    rw [hstep, except_ok_bind, initHeaderState_eq,
      hdr_steps f hmem [] _ _ _,
      files_fold fs' (fun x hx => hok x (List.mem_cons_of_mem f hx)) []
        (hdrFinal f) f.fragments (roundFile f) (mkDiffFile_hdrFinal f hmem)]
    simp

theorem approvedFilesAux_all : ∀ (files : List DiffFile) (i : Nat),
    approvedFilesAux (fun _ => some .approved) files i = files := by
  intro files
  induction files with
  | nil => intro i; rfl
  | cons f rest ih => intro i; simp [approvedFilesAux, decisionAt, ih]

theorem allApproved_generate (ds : DiffSet) :
    (allApprovedResult ds).generatePatchLines =
      ds.files.flatMap formatFilePatchLines := by
  unfold ReviewResult.generatePatchLines ReviewResult.approvedFiles allApprovedResult
  simp only [approvedFilesAux_all]
  by_cases h : ds.files.length = 0
  · have hnil : ds.files = [] := List.length_eq_zero.mp h
    simp [hnil]
  · simp [h]

theorem roundFile_counts (f : DiffFile) :
    (roundFile f).addedLines = f.addedLines ∧
      (roundFile f).deletedLines = f.deletedLines := ⟨rfl, rfl⟩

theorem roundFile_name (f : DiffFile) (hok : FileOk f)
    (hnr : f.isRenamed = false) : (roundFile f).name = f.name := by
  unfold DiffFile.name roundFile oldNameOut newNameOut
  simp only [hnr, Bool.false_eq_true, if_false]
  cases hn : f.isNew with
  | true =>
    have hne : f.newName ≠ "" := hok.2.1 hn
    simp [hne]
  | false =>
    cases hd : f.isDeleted with
    | true =>
      have hne : f.oldName ≠ "" := hok.2.2.1 hd
      simp [hne]
    | false =>
      have hne : f.newName ≠ "" := by
        intro e
        rw [hok.2.2.2.2.1 e] at hd
        exact absurd hd (by simp)
      simp [hne]

/-- C1 (amended): for any raw diff whose parse succeeds and contains no
renamed files, approving every file and regenerating the patch yields text
that `Parse` accepts, producing exactly the original files piped through
`roundFile` — hence a `DiffSet` with the same file count, the same display
names, and the same per-file added/deleted line counts.  (Renamed files
break the display-name conjunct: see the counterexample.) -/
theorem C1_roundtrip_no_renames (raw : List String) (ds : DiffSet)
    (h : Parse raw = .ok ds) (hnr : ∀ f ∈ ds.files, f.isRenamed = false) :
    Parse ((allApprovedResult ds).generatePatchLines) =
      .ok ⟨ds.files.map roundFile⟩ ∧
    (ds.files.map roundFile).length = ds.files.length ∧
    (ds.files.map roundFile).map DiffFile.name = ds.files.map DiffFile.name ∧
    (ds.files.map roundFile).map (fun f => (f.addedLines, f.deletedLines)) =
      ds.files.map (fun f => (f.addedLines, f.deletedLines)) := by
  have hok : ∀ f ∈ ds.files, FileOk f := Parse_wf h
  refine ⟨?_, by simp, ?_, ?_⟩
  · rw [allApproved_generate]
    unfold Parse
    rw [parse_print ds.files hok]
    rfl
  · rw [List.map_map]
    apply List.map_congr_left
    intro f hf
    exact roundFile_name f (hok f hf) (hnr f hf)
  · rw [List.map_map]
    apply List.map_congr_left
    intro f hf
    rfl

theorem C1_roundtrip_no_renames_witness :
    Parse tuiTestDiff = .ok tuiTestParsed ∧
    (∀ f ∈ tuiTestParsed.files, f.isRenamed = false) ∧
    (Parse ((allApprovedResult tuiTestParsed).generatePatchLines) =
        .ok ⟨tuiTestParsed.files.map roundFile⟩ ∧
      (tuiTestParsed.files.map roundFile).length = tuiTestParsed.files.length ∧
      (tuiTestParsed.files.map roundFile).map DiffFile.name =
        tuiTestParsed.files.map DiffFile.name ∧
      (tuiTestParsed.files.map roundFile).map
          (fun f => (f.addedLines, f.deletedLines)) =
        tuiTestParsed.files.map (fun f => (f.addedLines, f.deletedLines))) :=
  ⟨by decide, by decide,
    C1_roundtrip_no_renames tuiTestDiff tuiTestParsed (by decide) (by decide)⟩
